import Mathlib

/-
Verification development for the BusTub buffer pool manager and its
clock-style LRU replacer (src/buffer/lru_replacer.cpp and
src/buffer/buffer_pool_manager.cpp).  The C++ classes are shallowly
embedded: machine state becomes explicit record state, the mutex-guarded
methods become pure state transformers, and the external disk manager is
reflected as an event trace plus a persistent store.
-/

set_option maxRecDepth 4000

/-- Association-list lookup for the page table (std::unordered_map find). -/
def tblFind : List (Int × Nat) → Int → Option Nat
  | [], _ => none
  | (k, v) :: rest, p => if k = p then some v else tblFind rest p

/-- Association-list erase of the first binding of a key (unordered_map erase). -/
def tblErase : List (Int × Nat) → Int → List (Int × Nat)
  | [], _ => []
  | (k, v) :: rest, p => if k = p then rest else (k, v) :: tblErase rest p

/-- Association-list emplace: a no-op when the key is already bound
(std::unordered_map emplace). -/
def tblEmplace (t : List (Int × Nat)) (p : Int) (f : Nat) : List (Int × Nat) :=
  match tblFind t p with
  | some _ => t
  | none => (p, f) :: t

/-- Keys of a page-table association list. -/
def tblKeys (t : List (Int × Nat)) : List Int := t.map Prod.fst

/-- One tracked candidate of the LRU replacer: the heap-allocated PageNode of
lru_replacer.h, holding a clock reference bit, the tracked id and a pin
counter. -/
structure PageNode where
  reference_bit : Bool
  page_id : Int
  pin_num : Nat
deriving DecidableEq, Repr

/-- State of the clock-style LRUReplacer: scan cursor, count of unpinned
tracked candidates, declared capacity, and the candidate list in insertion
order. -/
structure LRUReplacer where
  current_index : Nat
  size : Nat
  capacity : Nat
  pages : List PageNode
deriving DecidableEq, Repr

/-- LRUReplacer constructor: cursor 0, size 0, given capacity, no nodes. -/
def LRUReplacer.init (num_pages : Nat) : LRUReplacer :=
  { current_index := 0, size := 0, capacity := num_pages, pages := [] }

/-- Ids of the tracked candidate nodes. -/
def idsOf (l : List PageNode) : List Int := l.map PageNode.page_id

/-- Number of tracked candidates with pin_num = 0; this is what the source
counts in the size field. -/
def countUnpinned (l : List PageNode) : Nat :=
  (l.filter (fun n => n.pin_num == 0)).length

/-- Helper of LRUReplacer.Pin: walk the node list, increment pin_num of the
first node carrying the id; the Bool reports whether that increment was the
0 to 1 transition (which decrements size in the source). -/
def pinGo : List PageNode → Int → List PageNode × Bool
  | [], _ => ([], false)
  | n :: rest, id =>
    if n.page_id = id then
      ({ n with pin_num := n.pin_num + 1 } :: rest, n.pin_num == 0)
    else
      let r := pinGo rest id
      (n :: r.1, r.2)

/-- LRUReplacer::Pin: make a tracked id ineligible; decrements size exactly
on the transition to pin_num = 1; a no-op on untracked ids. -/
def LRUReplacer.Pin (r : LRUReplacer) (frame_id : Int) : LRUReplacer :=
  let res := pinGo r.pages frame_id
  { r with pages := res.1, size := if res.2 then r.size - 1 else r.size }

/-- Helper of LRUReplacer.Unpin: find the first node carrying the id; if its
pin_num is nonzero, set the reference bit, zero the pin and report a size
increment; if already unpinned the node is left as it is (the source assigns
pin_num = 0 which it already holds). Returns none when the id is untracked. -/
def unpinGo : List PageNode → Int → Option (List PageNode × Bool)
  | [], _ => none
  | n :: rest, id =>
    if n.page_id = id then
      if n.pin_num ≠ 0 then
        some ({ n with reference_bit := true, pin_num := 0 } :: rest, true)
      else
        some (n :: rest, false)
    else
      match unpinGo rest id with
      | some (l, b) => some (n :: l, b)
      | none => none

/-- LRUReplacer::Unpin: refresh a tracked pinned id back to eligibility, or
append a fresh node (reference bit clear, pin 0) for an untracked id unless
size already equals capacity. -/
def LRUReplacer.Unpin (r : LRUReplacer) (frame_id : Int) : LRUReplacer :=
  match unpinGo r.pages frame_id with
  | some (l, b) => { r with pages := l, size := if b then r.size + 1 else r.size }
  | none =>
    if r.size = r.capacity then r
    else { r with pages := r.pages ++ [{ reference_bit := false, page_id := frame_id, pin_num := 0 }],
                  size := r.size + 1 }

/-- LRUReplacer::Size. -/
def LRUReplacer.Size (r : LRUReplacer) : Nat := r.size

/-- Body of the while(true) scan of LRUReplacer::Victim, with explicit fuel:
skip pinned nodes, clear and pass set reference bits (second chance), select
the first unpinned node with a clear bit, erase it and fix up the cursor. -/
def victimLoop : Nat → LRUReplacer → Option (Int × LRUReplacer)
  | 0, _ => none
  | fuel + 1, r =>
    match r.pages.get? r.current_index with
    | none => none
    | some node =>
      if node.pin_num ≠ 0 then
        victimLoop fuel { r with current_index := (r.current_index + 1) % r.pages.length }
      else if node.reference_bit then
        victimLoop fuel
          { r with pages := r.pages.set r.current_index { node with reference_bit := false },
                   current_index := (r.current_index + 1) % r.pages.length }
      else
        some (node.page_id,
          { r with pages := r.pages.eraseIdx r.current_index,
                   size := r.size - 1,
                   current_index :=
                     if r.size - 1 ≠ 0 then r.current_index % (r.size - 1) else 0 })

/-- Fuel that provably suffices for the clock scan on well-formed states. -/
def victimFuel (r : LRUReplacer) : Nat :=
  r.pages.length * r.pages.length + r.pages.length + 1

/-- LRUReplacer::Victim: none when size = 0, otherwise run the clock scan. -/
def LRUReplacer.Victim (r : LRUReplacer) : Option (Int × LRUReplacer) :=
  if r.size = 0 then none else victimLoop (victimFuel r) r

/-- In-memory frame metadata and contents: the Page object of the header
(page identifier, pin count, dirty flag, raw bytes).
Modelled from the spec: the Page class itself is not under src/; section 3
of the design gives its fields (identifier with sentinel -1, non-negative
pin count, dirty flag, byte buffer).  Bytes are abstracted to one Nat. -/
structure Page where
  page_id : Int
  pin_count : Int
  is_dirty : Bool
  data : Nat
deriving DecidableEq, Repr

/-- A freshly constructed frame: invalid id, unpinned, clean, zeroed. -/
def defaultPage : Page :=
  { page_id := -1, pin_count := 0, is_dirty := false, data := 0 }

/-- Calls observed by the external disk manager, in order. -/
inductive DiskOp where
  | write (page_id : Int) (bytes : Nat)
  | read (page_id : Int)
  | alloc (page_id : Int)
  | dealloc (page_id : Int)
deriving DecidableEq, Repr

/-- External disk manager state.
Modelled from the spec: the disk manager is an external collaborator
(section 6): WritePage persists bytes under an id, ReadPage returns the
persisted bytes (zeroed if never written), AllocatePage hands out fresh
increasing identifiers. -/
structure Disk where
  store : List (Int × Nat)
  next : Int
deriving DecidableEq, Repr

/-- DiskManager::ReadPage result: last write under the id, else zeroed. -/
def diskRead (dk : Disk) (p : Int) : Nat := (tblFind dk.store p).getD 0

/-- DiskManager::WritePage effect on the persistent store. -/
def diskWrite (dk : Disk) (p : Int) (d : Nat) : Disk :=
  { dk with store := (p, d) :: dk.store }

/-- Whole buffer pool manager state: frame array (total function over frame
indices), page table, free list, replacer, disk, disk-call trace, and a flag
recording that the program ran into undefined behaviour (dereferencing the
end iterator of page_table_.find). -/
structure BPM where
  pool_size : Nat
  pages : Nat → Page
  page_table : List (Int × Nat)
  free_list : List Nat
  replacer : LRUReplacer
  disk : Disk
  trace : List DiskOp
  stuck : Bool

/-- Update one frame of the frame array. -/
def updPages (ps : Nat → Page) (f : Nat) (pg : Page) : Nat → Page :=
  fun i => if i = f then pg else ps i

/-- BufferPoolManager constructor: every frame fresh, free list 0..n-1,
replacer of capacity n, empty page table. -/
def initBPM (n : Nat) : BPM :=
  { pool_size := n, pages := fun _ => defaultPage, page_table := [],
    free_list := List.range n, replacer := LRUReplacer.init n,
    disk := { store := [], next := 0 }, trace := [], stuck := false }

/-- Shared tail of FetchPageImpl once a replacement frame rf is chosen: flush
the frame under its old identifier if dirty, move the page-table binding,
install the new metadata (pin 1, clean), pin the id in the replacer and read
the page from disk. -/
def repurpose (s : BPM) (rf : Nat) (page_id : Int) : Option Nat × BPM :=
  let pg := s.pages rf
  let s1 :=
    if pg.is_dirty then
      { s with disk := diskWrite s.disk pg.page_id pg.data,
               trace := s.trace ++ [DiskOp.write pg.page_id pg.data] }
    else s
  (some rf,
    { s1 with
        page_table := tblEmplace (tblErase s1.page_table pg.page_id) page_id rf,
        pages :=
          updPages s1.pages rf
            ({ page_id := page_id, pin_count := 1, is_dirty := false,
               data := diskRead s1.disk page_id }),
        replacer := LRUReplacer.Pin s1.replacer page_id,
        trace := s1.trace ++ [DiskOp.read page_id] })

/-- BufferPoolManager::FetchPageImpl. -/
def FetchPageImpl (s : BPM) (page_id : Int) : Option Nat × BPM :=
  match tblFind s.page_table page_id with
  | some f =>
    (some f,
      { s with replacer := LRUReplacer.Pin s.replacer page_id,
               pages :=
                 updPages s.pages f ({ s.pages f with pin_count := (s.pages f).pin_count + 1 }) })
  | none =>
    if s.free_list = [] ∧ LRUReplacer.Size s.replacer = 0 then (none, s)
    else
      match s.free_list with
      | rf :: rest => repurpose { s with free_list := rest } rf page_id
      | [] =>
        match LRUReplacer.Victim s.replacer with
        | none => (none, { s with stuck := true })
        | some (temp, r1) =>
          match tblFind s.page_table temp with
          | none => (none, { s with replacer := r1, stuck := true })
          | some rf => repurpose { s with replacer := r1 } rf page_id

/-- BufferPoolManager::UnpinPageImpl: overwrite the dirty flag with is_dirty,
decrement the pin count, clamp it at zero and hand the page back to the
replacer exactly when it reaches zero; returns whether the page was pinned
before the call. -/
def UnpinPageImpl (s : BPM) (page_id : Int) (is_dirty : Bool) : Bool × BPM :=
  match tblFind s.page_table page_id with
  | none => (false, s)
  | some f =>
    let pg := s.pages f
    let flag := decide (0 < pg.pin_count)
    if pg.pin_count - 1 ≤ 0 then
      (flag,
        { s with pages := updPages s.pages f ({ pg with is_dirty := is_dirty, pin_count := 0 }),
                 replacer := LRUReplacer.Unpin s.replacer page_id })
    else
      (flag,
        { s with pages :=
            updPages s.pages f ({ pg with is_dirty := is_dirty, pin_count := pg.pin_count - 1 }) })

/-- BufferPoolManager::FlushPageImpl: unconditional write of the resident
bytes under the requested id. -/
def FlushPageImpl (s : BPM) (page_id : Int) : Bool × BPM :=
  match tblFind s.page_table page_id with
  | none => (false, s)
  | some f =>
    (true,
      { s with disk := diskWrite s.disk page_id (s.pages f).data,
               trace := s.trace ++ [DiskOp.write page_id (s.pages f).data] })

/-- Shared tail of NewPageImpl once a frame f is chosen for fresh page x:
record the binding, zero the bytes, install metadata and pin x. -/
def newInstall (s : BPM) (f : Nat) (x : Int) : Option (Int × Nat) × BPM :=
  (some (x, f),
    { s with page_table := tblEmplace s.page_table x f,
             pages :=
               updPages s.pages f ({ page_id := x, pin_count := 1, is_dirty := false, data := 0 }),
             replacer := LRUReplacer.Pin s.replacer x })

/-- BufferPoolManager::NewPageImpl: allocate an id first (even when the pool
turns out to be full), then take a frame from the free list, or evict a
victim, flushing it through FlushPageImpl when dirty. The source has its
lock_guard commented out; the lock model below records that. -/
def NewPageImpl (s : BPM) : Option (Int × Nat) × BPM :=
  let x := s.disk.next
  let s0 := { s with disk := { s.disk with next := s.disk.next + 1 },
                     trace := s.trace ++ [DiskOp.alloc x] }
  if LRUReplacer.Size s0.replacer = 0 ∧ s0.free_list = [] then (none, s0)
  else
    match s0.free_list with
    | f :: rest => newInstall { s0 with free_list := rest } f x
    | [] =>
      match LRUReplacer.Victim s0.replacer with
      | none => (none, { s0 with stuck := true })
      | some (temp, r1) =>
        let s1 := { s0 with replacer := r1 }
        match tblFind s1.page_table temp with
        | none => (none, { s1 with stuck := true })
        | some f =>
          let s2 := if (s1.pages f).is_dirty then (FlushPageImpl s1 temp).2 else s1
          newInstall { s2 with page_table := tblErase s2.page_table temp } f x

/-- BufferPoolManager::DeletePageImpl: deallocate on disk regardless of
residency; refuse when pinned; otherwise drop the binding, reset the frame
identifier to the sentinel and append the frame to the free list.  The dirty
flag and the bytes are left behind, and the replacer is not told. -/
def DeletePageImpl (s : BPM) (page_id : Int) : Bool × BPM :=
  let s0 := { s with trace := s.trace ++ [DiskOp.dealloc page_id] }
  match tblFind s0.page_table page_id with
  | none => (true, s0)
  | some f =>
    if 0 < (s0.pages f).pin_count then (false, s0)
    else
      (true,
        { s0 with page_table := tblErase s0.page_table page_id,
                  pages := updPages s0.pages f ({ s0.pages f with page_id := -1 }),
                  free_list := s0.free_list ++ [f] })

/-- BufferPoolManager::FlushAllPagesImpl: flush every frame holding a valid
identifier through FlushPageImpl. -/
def FlushAllPagesImpl (s : BPM) : BPM :=
  (List.range s.pool_size).foldl
    (fun s i =>
      if (s.pages i).page_id ≠ -1 then (FlushPageImpl s (s.pages i).page_id).2 else s)
    s

/-- A caller storing bytes into the frame of a resident pinned page through
the returned handle.
Modelled from the spec: callers write through borrowed handles while pinned
(section 5); only the byte buffer changes. -/
def WriteData (s : BPM) (page_id : Int) (bytes : Nat) : BPM :=
  match tblFind s.page_table page_id with
  | none => s
  | some f => { s with pages := updPages s.pages f ({ s.pages f with data := bytes }) }

/-- Fetch/unpin operations for claim C1's operation sequences. -/
inductive FUOp where
  | fetch (p : Int)
  | unpin (p : Int) (d : Bool)
deriving DecidableEq, Repr

/-- A fetch must carry a real (non-negative, disk-allocated) page id. -/
def opOk : FUOp → Prop
  | FUOp.fetch p => 0 ≤ p
  | FUOp.unpin _ _ => True

instance : DecidablePred opOk := fun op => by
  cases op <;> simp [opOk] <;> infer_instance

/-- Apply one fetch/unpin operation, keeping only the state. -/
def applyFU (s : BPM) : FUOp → BPM
  | FUOp.fetch p => (FetchPageImpl s p).2
  | FUOp.unpin p d => (UnpinPageImpl s p d).2

/-- Run a sequence of fetch/unpin operations. -/
def runFU : BPM → List FUOp → BPM
  | s, [] => s
  | s, op :: rest => runFU (applyFU s op) rest

/-- Latch (pool mutex) events an operation performs, in order. -/
inductive LatchEv where
  | acq
  | rel
deriving DecidableEq, Repr

/-- FetchPageImpl holds the latch for its whole body (lock_guard). -/
def fetchLatch : List LatchEv := [LatchEv.acq, LatchEv.rel]

/-- UnpinPageImpl holds the latch for its whole body (lock_guard). -/
def unpinLatch : List LatchEv := [LatchEv.acq, LatchEv.rel]

/-- FlushPageImpl holds the latch for its whole body (lock_guard). -/
def flushLatch : List LatchEv := [LatchEv.acq, LatchEv.rel]

/-- DeletePageImpl holds the latch for its whole body (lock_guard). -/
def deleteLatch : List LatchEv := [LatchEv.acq, LatchEv.rel]

/-- NewPageImpl performs no latch operations: its lock_guard is commented out
in the source. -/
def newPageLatch : List LatchEv := []

/-- FlushAllPagesImpl acquires the latch, then per resident frame calls
FlushPageImpl, which acquires and releases the same latch again, and finally
releases its own hold. -/
def flushAllLatch (s : BPM) : List LatchEv :=
  [LatchEv.acq] ++
    ((List.range s.pool_size).foldr
      (fun i acc => if (s.pages i).page_id ≠ -1 then flushLatch ++ acc else acc) []) ++
    [LatchEv.rel]

/-- Detects an acquire of the (non-recursive) latch while it is already
held: the self-deadlock condition of std::mutex. -/
def nestedAcquire : List LatchEv → Nat → Bool
  | [], _ => false
  | LatchEv.acq :: rest, d => if 0 < d then true else nestedAcquire rest (d + 1)
  | LatchEv.rel :: rest, d => nestedAcquire rest (d - 1)

/-- Well-formedness of a replacer state, maintained by every replacer
operation: size counts exactly the unpinned tracked nodes, the clock cursor
is in range, and tracked ids are pairwise distinct. -/
structure LRUReplacer.WF (r : LRUReplacer) : Prop where
  sizeEq : r.size = countUnpinned r.pages
  idxOk : r.current_index < r.pages.length ∨ (r.pages = [] ∧ r.current_index = 0)
  nodupIds : (idsOf r.pages).Nodup

theorem idsOf_cons (n : PageNode) (l : List PageNode) :
    idsOf (n :: l) = n.page_id :: idsOf l := rfl

theorem idsOf_length (l : List PageNode) : (idsOf l).length = l.length := by
  simp [idsOf]

theorem countUnpinned_cons (n : PageNode) (l : List PageNode) :
    countUnpinned (n :: l) = (if n.pin_num = 0 then 1 else 0) + countUnpinned l := by
  by_cases hp : n.pin_num = 0 <;> simp [countUnpinned, hp] <;> omega

theorem countUnpinned_append (l1 l2 : List PageNode) :
    countUnpinned (l1 ++ l2) = countUnpinned l1 + countUnpinned l2 := by
  simp [countUnpinned, List.filter_append]

theorem countUnpinned_le_length (l : List PageNode) : countUnpinned l ≤ l.length := by
  simpa [countUnpinned] using List.length_filter_le _ l

theorem countUnpinned_pos (l : List PageNode) (h : 0 < countUnpinned l) :
    ∃ j, ∃ hj : j < l.length, (l.get ⟨j, hj⟩).pin_num = 0 := by
  induction l with
  | nil => simp [countUnpinned] at h
  | cons n rest ih =>
    by_cases hp : n.pin_num = 0
    · exact ⟨0, by simp, hp⟩
    · rw [countUnpinned_cons, if_neg hp] at h
      obtain ⟨j, hj, hg⟩ := ih (by omega)
      exact ⟨j + 1, by simpa using hj, hg⟩

theorem tblKeys_cons (k : Int) (v : Nat) (t : List (Int × Nat)) :
    tblKeys ((k, v) :: t) = k :: tblKeys t := rfl

theorem tblErase_of_find_none (p : Int) :
    ∀ t : List (Int × Nat), tblFind t p = none → tblErase t p = t := by
  intro t
  induction t with
  | nil => intro _; rfl
  | cons kv rest ih =>
    obtain ⟨k, v⟩ := kv
    intro h
    by_cases hk : k = p
    · simp [tblFind, hk] at h
    · simp [tblFind, hk] at h
      simp [tblErase, hk, ih h]

theorem not_mem_keys_of_find_none (p : Int) :
    ∀ t : List (Int × Nat), tblFind t p = none → p ∉ tblKeys t := by
  intro t
  induction t with
  | nil => intro _ h; simp [tblKeys] at h
  | cons kv rest ih =>
    obtain ⟨k, v⟩ := kv
    intro h hmem
    by_cases hk : k = p
    · simp [tblFind, hk] at h
    · simp [tblFind, hk] at h
      rw [tblKeys_cons, List.mem_cons] at hmem
      rcases hmem with hm | hm
      · exact hk hm.symm
      · exact ih h hm

theorem find_none_of_not_mem_keys (p : Int) :
    ∀ t : List (Int × Nat), p ∉ tblKeys t → tblFind t p = none := by
  intro t
  induction t with
  | nil => intro _; rfl
  | cons kv rest ih =>
    obtain ⟨k, v⟩ := kv
    intro h
    rw [tblKeys_cons, List.mem_cons] at h
    push_neg at h
    have hk : ¬ k = p := fun hh => h.1 hh.symm
    simp [tblFind, hk, ih h.2]

theorem tblFind_erase_ne (p q : Int) (hqp : q ≠ p) :
    ∀ t : List (Int × Nat), tblFind (tblErase t p) q = tblFind t q := by
  intro t
  induction t with
  | nil => rfl
  | cons kv rest ih =>
    obtain ⟨k, v⟩ := kv
    by_cases hk : k = p
    · subst hk
      have hkq : ¬ k = q := fun h => hqp h.symm
      simp [tblErase, tblFind, hkq]
    · simp [tblErase, tblFind, hk, ih]

theorem tblFind_erase_self (p : Int) :
    ∀ t : List (Int × Nat), (tblKeys t).Nodup → tblFind (tblErase t p) p = none := by
  intro t
  induction t with
  | nil => intro _; rfl
  | cons kv rest ih =>
    obtain ⟨k, v⟩ := kv
    intro hnd
    rw [tblKeys_cons, List.nodup_cons] at hnd
    by_cases hk : k = p
    · simp only [tblErase, if_pos hk]
      exact find_none_of_not_mem_keys p rest (hk ▸ hnd.1)
    · simp only [tblErase, if_neg hk]
      simp [tblFind, hk, ih hnd.2]

theorem tblKeys_erase_sublist (p : Int) :
    ∀ t : List (Int × Nat), (tblKeys (tblErase t p)).Sublist (tblKeys t) := by
  intro t
  induction t with
  | nil => exact List.Sublist.refl _
  | cons kv rest ih =>
    obtain ⟨k, v⟩ := kv
    by_cases hk : k = p
    · simp only [tblErase, if_pos hk, tblKeys_cons]
      exact List.sublist_cons_self k (tblKeys rest)
    · simp only [tblErase, if_neg hk, tblKeys_cons]
      exact List.Sublist.cons₂ k ih

theorem tblEmplace_of_none (p : Int) (f : Nat) (t : List (Int × Nat))
    (h : tblFind t p = none) : tblEmplace t p f = (p, f) :: t := by
  simp [tblEmplace, h]

theorem pinGo_ids (id : Int) : ∀ l : List PageNode, idsOf (pinGo l id).1 = idsOf l := by
  intro l
  induction l with
  | nil => rfl
  | cons n rest ih =>
    by_cases hn : n.page_id = id
    · simp [pinGo, hn, idsOf]
    · simp only [pinGo, if_neg hn]
      rw [idsOf_cons, idsOf_cons, ih]

theorem pinGo_not_mem (id : Int) :
    ∀ l : List PageNode, id ∉ idsOf l → pinGo l id = (l, false) := by
  intro l
  induction l with
  | nil => intro _; rfl
  | cons n rest ih =>
    intro h
    rw [idsOf_cons, List.mem_cons] at h
    push_neg at h
    have hn : ¬ n.page_id = id := fun hh => h.1 hh.symm
    simp [pinGo, hn, ih h.2]

theorem pinGo_snd_count (id : Int) : ∀ l : List PageNode,
    (pinGo l id).2 = true → 0 < countUnpinned l := by
  intro l
  induction l with
  | nil => intro h; simp [pinGo] at h
  | cons n rest ih =>
    intro h
    by_cases hn : n.page_id = id
    · simp [pinGo, hn] at h
      rw [countUnpinned_cons, if_pos h]
      omega
    · simp only [pinGo, if_neg hn] at h
      have h2 := ih h
      rw [countUnpinned_cons]
      omega

theorem pinGo_count (id : Int) : ∀ l : List PageNode,
    countUnpinned (pinGo l id).1 =
      if (pinGo l id).2 then countUnpinned l - 1 else countUnpinned l := by
  intro l
  induction l with
  | nil => rfl
  | cons n rest ih =>
    by_cases hn : n.page_id = id
    · by_cases hp : n.pin_num = 0
      · simp [pinGo, hn, hp, countUnpinned_cons]
      · simp [pinGo, hn, hp, countUnpinned_cons]
    · simp only [pinGo, if_neg hn]
      by_cases hb : (pinGo rest id).2 = true
      · have hpos := pinGo_snd_count id rest hb
        rw [countUnpinned_cons, countUnpinned_cons, ih, if_pos hb, if_pos hb]
        by_cases hp : n.pin_num = 0 <;> simp [hp] <;> omega
      · rw [countUnpinned_cons, countUnpinned_cons, ih]
        simp only [Bool.not_eq_true] at hb
        rw [hb]
        simp

theorem pinGo_unpinned_mem (id : Int) : ∀ l : List PageNode,
    ∀ n ∈ (pinGo l id).1, n.pin_num = 0 → n ∈ l := by
  intro l
  induction l with
  | nil => intro n hn; simp [pinGo] at hn
  | cons m rest ih =>
    intro n hn hp
    by_cases hm : m.page_id = id
    · simp [pinGo, hm] at hn
      rcases hn with hn | hn
      · rw [hn] at hp; simp at hp
      · exact List.mem_cons_of_mem _ hn
    · simp only [pinGo, if_neg hm, List.mem_cons] at hn
      rcases hn with hn | hn
      · exact hn ▸ List.mem_cons_self _ _
      · exact List.mem_cons_of_mem _ (ih n hn hp)

theorem pinGo_id_pos (id : Int) : ∀ l : List PageNode,
    id ∈ idsOf l → (idsOf l).Nodup →
    ∀ n ∈ (pinGo l id).1, n.page_id = id → n.pin_num ≠ 0 := by
  intro l
  induction l with
  | nil => intro h; simp [idsOf] at h
  | cons m rest ih =>
    intro hmem hnd n hn hid
    rw [idsOf_cons, List.nodup_cons] at hnd
    by_cases hm : m.page_id = id
    · simp [pinGo, hm] at hn
      rcases hn with hn | hn
      · rw [hn]; simp
      · intro _
        apply hnd.1
        rw [hm, ← hid]
        exact List.mem_map_of_mem _ hn
    · rw [idsOf_cons, List.mem_cons] at hmem
      rcases hmem with h | h
      · exact absurd h.symm hm
      · simp only [pinGo, if_neg hm, List.mem_cons] at hn
        rcases hn with hn | hn
        · exact absurd (hn ▸ hid) hm
        · exact ih h hnd.2 n hn hid

theorem Pin_WF (r : LRUReplacer) (id : Int) (h : r.WF) : (r.Pin id).WF := by
  obtain ⟨hsize, hidx, hnd⟩ := h
  have hids := pinGo_ids id r.pages
  have hlen : (pinGo r.pages id).1.length = r.pages.length := by
    have h2 := congrArg List.length hids
    rwa [idsOf_length, idsOf_length] at h2
  constructor
  · simp only [LRUReplacer.Pin]
    rw [pinGo_count id r.pages, hsize]
  · simp only [LRUReplacer.Pin]
    rcases hidx with hh | hh
    · left; rw [hlen]; exact hh
    · right
      refine ⟨List.length_eq_zero.mp ?_, hh.2⟩
      rw [hlen, hh.1]
      rfl
  · simp only [LRUReplacer.Pin]
    show (idsOf (pinGo r.pages id).1).Nodup
    rw [hids]
    exact hnd

theorem Pin_ids (r : LRUReplacer) (id : Int) : idsOf (r.Pin id).pages = idsOf r.pages :=
  pinGo_ids id r.pages

theorem Pin_not_tracked (r : LRUReplacer) (id : Int) (h : id ∉ idsOf r.pages) :
    r.Pin id = r := by
  simp only [LRUReplacer.Pin]
  rw [pinGo_not_mem id r.pages h]
  rfl

theorem Pin_unpinned_mem (r : LRUReplacer) (id : Int) :
    ∀ n ∈ (r.Pin id).pages, n.pin_num = 0 → n ∈ r.pages :=
  pinGo_unpinned_mem id r.pages

theorem Pin_unpinned_ne (r : LRUReplacer) (id : Int) (hnd : (idsOf r.pages).Nodup) :
    ∀ n ∈ (r.Pin id).pages, n.pin_num = 0 → n.page_id ≠ id := by
  intro n hn hp
  by_cases hmem : id ∈ idsOf r.pages
  · exact fun hid => pinGo_id_pos id r.pages hmem hnd n hn hid hp
  · intro hid
    have hsrc : n ∈ r.pages := Pin_unpinned_mem r id n hn hp
    exact hmem (hid ▸ List.mem_map_of_mem _ hsrc)

theorem unpinGo_none_iff (id : Int) : ∀ l : List PageNode,
    unpinGo l id = none ↔ id ∉ idsOf l := by
  intro l
  induction l with
  | nil => simp [unpinGo, idsOf]
  | cons n rest ih =>
    rw [idsOf_cons, List.mem_cons]
    by_cases hn : n.page_id = id
    · constructor
      · intro h
        by_cases hp : n.pin_num = 0 <;> simp [unpinGo, hn, hp] at h
      · intro h
        exact absurd (Or.inl hn.symm) h
    · have heq : unpinGo (n :: rest) id = none ↔ unpinGo rest id = none := by
        cases hrest : unpinGo rest id with
        | none => simp [unpinGo, hn, hrest]
        | some lb => obtain ⟨l2, b⟩ := lb; simp [unpinGo, hn, hrest]
      rw [heq, ih]
      constructor
      · intro h hmem
        rcases hmem with hm | hm
        · exact hn hm.symm
        · exact h hm
      · intro h hm
        exact h (Or.inr hm)

theorem unpinGo_spec (id : Int) : ∀ (l l2 : List PageNode) (b : Bool),
    unpinGo l id = some (l2, b) →
    idsOf l2 = idsOf l ∧
    countUnpinned l2 = (if b then countUnpinned l + 1 else countUnpinned l) ∧
    (∀ n ∈ l2, n ∈ l ∨ (n.page_id = id ∧ n.pin_num = 0)) := by
  intro l
  induction l with
  | nil => intro l2 b h; simp [unpinGo] at h
  | cons n rest ih =>
    intro l2 b h
    by_cases hn : n.page_id = id
    · by_cases hp : n.pin_num = 0
      · simp [unpinGo, hn, hp] at h
        obtain ⟨h1, h2⟩ := h
        subst h1 h2
        exact ⟨rfl, by simp, fun m hm => Or.inl hm⟩
      · simp [unpinGo, hn, hp] at h
        obtain ⟨h1, h2⟩ := h
        subst h1 h2
        refine ⟨by simp [idsOf_cons, hn], ?_, ?_⟩
        · rw [countUnpinned_cons, countUnpinned_cons]
          simp [hp]
          omega
        · intro m hm
          rcases List.mem_cons.mp hm with hm | hm
          · right
            rw [hm]
            exact ⟨rfl, rfl⟩
          · exact Or.inl (List.mem_cons_of_mem _ hm)
    · cases hrest : unpinGo rest id with
      | none => simp [unpinGo, hn, hrest] at h
      | some lb =>
        obtain ⟨l3, b3⟩ := lb
        simp [unpinGo, hn, hrest] at h
        obtain ⟨h1, h2⟩ := h
        subst h1 h2
        obtain ⟨g1, g2, g3⟩ := ih l3 b3 hrest
        refine ⟨by rw [idsOf_cons, idsOf_cons, g1], ?_, ?_⟩
        · rw [countUnpinned_cons, countUnpinned_cons, g2]
          by_cases hb : b3 = true <;> simp [hb] <;> omega
        · intro m hm
          rcases List.mem_cons.mp hm with hm | hm
          · exact Or.inl (hm ▸ List.mem_cons_self _ _)
          · rcases g3 m hm with hg | hg
            · exact Or.inl (List.mem_cons_of_mem _ hg)
            · exact Or.inr hg

theorem Unpin_WF (r : LRUReplacer) (id : Int) (h : r.WF) : (r.Unpin id).WF := by
  obtain ⟨hsize, hidx, hnd⟩ := h
  unfold LRUReplacer.Unpin
  cases hgo : unpinGo r.pages id with
  | some lb =>
    obtain ⟨l2, b⟩ := lb
    obtain ⟨g1, g2, _⟩ := unpinGo_spec id r.pages l2 b hgo
    have hlen : l2.length = r.pages.length := by
      have h2 := congrArg List.length g1
      rwa [idsOf_length, idsOf_length] at h2
    constructor
    · show (if b then r.size + 1 else r.size) = countUnpinned l2
      rw [g2, hsize]
    · show r.current_index < l2.length ∨ (l2 = [] ∧ r.current_index = 0)
      rcases hidx with hh | hh
      · left; rw [hlen]; exact hh
      · right
        refine ⟨List.length_eq_zero.mp (by rw [hlen, hh.1]; rfl), hh.2⟩
    · show (idsOf l2).Nodup
      rw [g1]; exact hnd
  | none =>
    by_cases hcap : r.size = r.capacity
    · simp only [if_pos hcap]
      exact ⟨hsize, hidx, hnd⟩
    · simp only [if_neg hcap]
      have hnotmem : id ∉ idsOf r.pages := (unpinGo_none_iff id r.pages).mp hgo
      constructor
      · show r.size + 1 = countUnpinned (r.pages ++ [_])
        rw [countUnpinned_append, hsize, countUnpinned_cons]
        simp [countUnpinned]
      · show r.current_index < (r.pages ++ [_]).length ∨ _
        left
        rw [List.length_append]
        rcases hidx with hh | hh
        · omega
        · rw [hh.1, hh.2]
          simp
      · show (idsOf (r.pages ++ [_])).Nodup
        have : idsOf (r.pages ++ [⟨false, id, 0⟩]) = idsOf r.pages ++ [id] := by
          simp [idsOf]
        rw [this]
        simp [List.nodup_append, hnd, hnotmem]

theorem Unpin_src (r : LRUReplacer) (id : Int) :
    ∀ n ∈ (r.Unpin id).pages, n ∈ r.pages ∨ (n.page_id = id ∧ n.pin_num = 0) := by
  intro n hn
  unfold LRUReplacer.Unpin at hn
  cases hgo : unpinGo r.pages id with
  | some lb =>
    obtain ⟨l2, b⟩ := lb
    rw [hgo] at hn
    exact (unpinGo_spec id r.pages l2 b hgo).2.2 n hn
  | none =>
    rw [hgo] at hn
    by_cases hcap : r.size = r.capacity
    · rw [if_pos hcap] at hn
      exact Or.inl hn
    · rw [if_neg hcap] at hn
      simp only at hn
      rcases List.mem_append.mp hn with hm | hm
      · exact Or.inl hm
      · right
        rcases List.mem_singleton.mp hm with rfl
        exact ⟨rfl, rfl⟩

/-- Two node lists agreeing on ids and pin counters position by position
(reference bits may differ): the clock scan only mutates reference bits
before it selects. -/
def samePins : List PageNode → List PageNode → Prop :=
  List.Forall₂ (fun a b => a.page_id = b.page_id ∧ a.pin_num = b.pin_num)

theorem samePins_refl (l : List PageNode) : samePins l l := by
  induction l with
  | nil => exact List.Forall₂.nil
  | cons n rest ih => exact List.Forall₂.cons ⟨rfl, rfl⟩ ih

theorem samePins_trans {l1 l2 l3 : List PageNode}
    (h1 : samePins l1 l2) (h2 : samePins l2 l3) : samePins l1 l3 := by
  induction h1 generalizing l3 with
  | nil => cases h2; exact List.Forall₂.nil
  | cons hab hrest ih =>
    cases h2 with
    | cons hbc hrest2 =>
      exact List.Forall₂.cons ⟨hab.1.trans hbc.1, hab.2.trans hbc.2⟩ (ih hrest2)

theorem samePins_ids {l1 l2 : List PageNode} (h : samePins l1 l2) :
    idsOf l1 = idsOf l2 := by
  induction h with
  | nil => rfl
  | cons hab _ ih => rw [idsOf_cons, idsOf_cons, hab.1, ih]

theorem samePins_count {l1 l2 : List PageNode} (h : samePins l1 l2) :
    countUnpinned l1 = countUnpinned l2 := by
  induction h with
  | nil => rfl
  | cons hab _ ih => rw [countUnpinned_cons, countUnpinned_cons, hab.2, ih]

theorem samePins_length {l1 l2 : List PageNode} (h : samePins l1 l2) :
    l1.length = l2.length := h.length_eq

theorem samePins_mem_right {l1 l2 : List PageNode} (h : samePins l1 l2) :
    ∀ n ∈ l2, ∃ m ∈ l1, m.page_id = n.page_id ∧ m.pin_num = n.pin_num := by
  induction h with
  | nil => intro n hn; simp at hn
  | cons hab _ ih =>
    intro n hn
    rcases List.mem_cons.mp hn with hn | hn
    · exact ⟨_, List.mem_cons_self _ _, hn ▸ hab.1, hn ▸ hab.2⟩
    · obtain ⟨m, hm, he⟩ := ih n hn
      exact ⟨m, List.mem_cons_of_mem _ hm, he⟩

theorem samePins_set_clear (l : List PageNode) (i : Nat) (node : PageNode)
    (hget : l.get? i = some node) :
    samePins l (l.set i { node with reference_bit := false }) := by
  induction l generalizing i with
  | nil => simp at hget
  | cons n rest ih =>
    rw [List.get?_eq_getElem?] at hget
    cases i with
    | zero =>
      simp at hget
      subst hget
      exact List.Forall₂.cons ⟨rfl, rfl⟩ (samePins_refl rest)
    | succ j =>
      simp at hget
      exact List.Forall₂.cons ⟨rfl, rfl⟩
        (ih j (by rw [List.get?_eq_getElem?]; exact hget))

/-- Number of eligible nodes whose reference bit is still set: the quantity a
full clock lap strictly decreases. -/
def setBits (l : List PageNode) : Nat :=
  (l.filter (fun n => n.pin_num == 0 && n.reference_bit)).length

theorem setBits_cons (n : PageNode) (l : List PageNode) :
    setBits (n :: l) =
      (if n.pin_num = 0 ∧ n.reference_bit = true then 1 else 0) + setBits l := by
  by_cases hp : n.pin_num = 0 <;> by_cases hb : n.reference_bit = true <;>
    simp [setBits, hp, hb] <;> omega

theorem setBits_le_length (l : List PageNode) : setBits l ≤ l.length := by
  simpa [setBits] using List.length_filter_le _ l

theorem setBits_set_clear (l : List PageNode) (i : Nat) (node : PageNode)
    (hget : l.get? i = some node) (hpin : node.pin_num = 0)
    (hbit : node.reference_bit = true) :
    setBits (l.set i { node with reference_bit := false }) + 1 = setBits l := by
  induction l generalizing i with
  | nil => simp at hget
  | cons n rest ih =>
    rw [List.get?_eq_getElem?] at hget
    cases i with
    | zero =>
      simp at hget
      subst hget
      rw [List.set_cons_zero, setBits_cons, setBits_cons]
      simp [hpin, hbit] <;> omega
    | succ j =>
      simp at hget
      rw [List.set_cons_succ, setBits_cons, setBits_cons]
      have h2 := ih j (by rw [List.get?_eq_getElem?]; exact hget)
      omega

theorem victimLoop_skip (fuel : Nat) (r : LRUReplacer) (node : PageNode)
    (hget : r.pages.get? r.current_index = some node) (hpin : node.pin_num ≠ 0) :
    victimLoop (fuel + 1) r =
      victimLoop fuel { r with current_index := (r.current_index + 1) % r.pages.length } := by
  rw [List.get?_eq_getElem?] at hget
  simp [victimLoop, hget, hpin]

theorem victimLoop_clear (fuel : Nat) (r : LRUReplacer) (node : PageNode)
    (hget : r.pages.get? r.current_index = some node) (hpin : node.pin_num = 0)
    (hbit : node.reference_bit = true) :
    victimLoop (fuel + 1) r =
      victimLoop fuel
        { r with pages := r.pages.set r.current_index { node with reference_bit := false },
                 current_index := (r.current_index + 1) % r.pages.length } := by
  rw [List.get?_eq_getElem?] at hget
  simp [victimLoop, hget, hpin, hbit]

theorem victimLoop_select (fuel : Nat) (r : LRUReplacer) (node : PageNode)
    (hget : r.pages.get? r.current_index = some node) (hpin : node.pin_num = 0)
    (hbit : node.reference_bit = false) :
    victimLoop (fuel + 1) r =
      some (node.page_id,
        { r with pages := r.pages.eraseIdx r.current_index,
                 size := r.size - 1,
                 current_index :=
                   if r.size - 1 ≠ 0 then r.current_index % (r.size - 1) else 0 }) := by
  rw [List.get?_eq_getElem?] at hget
  simp [victimLoop, hget, hpin, hbit]

theorem victimLoop_sound : ∀ (fuel : Nat) (r : LRUReplacer) (p : Int) (r2 : LRUReplacer),
    victimLoop fuel r = some (p, r2) →
    ∃ (l : List PageNode) (k : Nat) (hk : k < l.length),
      samePins r.pages l ∧
      (l.get ⟨k, hk⟩).pin_num = 0 ∧
      p = (l.get ⟨k, hk⟩).page_id ∧
      r2.pages = l.eraseIdx k ∧
      r2.size = r.size - 1 ∧
      r2.capacity = r.capacity ∧
      r2.current_index = (if r.size - 1 ≠ 0 then k % (r.size - 1) else 0) := by
  intro fuel
  induction fuel with
  | zero => intro r p r2 h; simp [victimLoop] at h
  | succ fuel ih =>
    intro r p r2 h
    cases hget : r.pages.get? r.current_index with
    | none => rw [victimLoop] at h; rw [hget] at h; simp at h
    | some node =>
      by_cases hpin : node.pin_num = 0
      · by_cases hbit : node.reference_bit = true
        · rw [victimLoop_clear fuel r node hget hpin hbit] at h
          obtain ⟨l, k, hk, hsp, hp0, hpid, hpg, hsz, hcap, hidx⟩ := ih _ p r2 h
          exact ⟨l, k, hk,
            samePins_trans (samePins_set_clear r.pages r.current_index node hget) hsp,
            hp0, hpid, hpg, hsz, hcap, hidx⟩
        · have hbit2 : node.reference_bit = false := by
            simpa using hbit
          rw [victimLoop_select fuel r node hget hpin hbit2] at h
          simp only [Option.some.injEq, Prod.mk.injEq] at h
          obtain ⟨hpid, hr2⟩ := h
          obtain ⟨hk, hgetEq⟩ := List.get?_eq_some.mp hget
          refine ⟨r.pages, r.current_index, hk, samePins_refl _, ?_, ?_, ?_, ?_, ?_, ?_⟩
          · rw [hgetEq]; exact hpin
          · rw [hgetEq, hpid]
          · rw [← hr2]
          · rw [← hr2]
          · rw [← hr2]
          · rw [← hr2]
      · rw [victimLoop_skip fuel r node hget hpin] at h
        obtain ⟨l, k, hk, hsp, hp0, hpid, hpg, hsz, hcap, hidx⟩ := ih _ p r2 h
        exact ⟨l, k, hk, hsp, hp0, hpid, hpg, hsz, hcap, hidx⟩

theorem cycStep (i e len : Nat) :
    ((i + 1) % len + e) % len = (i + (e + 1)) % len := by
  rw [Nat.mod_add_mod]
  have h : i + 1 + e = i + (e + 1) := by omega
  rw [h]

theorem victimLap : ∀ (d : Nat) (r : LRUReplacer) (fuel : Nat),
    r.current_index < r.pages.length →
    (r.pages.get? ((r.current_index + d) % r.pages.length)).map PageNode.pin_num = some 0 →
    (∀ e < d, (r.pages.get? ((r.current_index + e) % r.pages.length)).map PageNode.pin_num ≠ some 0) →
    (∃ res, victimLoop (fuel + (d + 1)) r = some res) ∨
    (∃ r2, victimLoop (fuel + (d + 1)) r = victimLoop fuel r2 ∧
       setBits r2.pages + 1 = setBits r.pages ∧
       r2.pages.length = r.pages.length ∧
       countUnpinned r2.pages = countUnpinned r.pages ∧
       r2.size = r.size ∧
       r2.current_index < r2.pages.length) := by
  intro d
  induction d with
  | zero =>
    intro r fuel hidx hfound _
    have hlen : 0 < r.pages.length := by omega
    rw [Nat.add_zero, Nat.mod_eq_of_lt hidx] at hfound
    obtain ⟨node, hget, hpin⟩ := Option.map_eq_some'.mp hfound
    by_cases hbit : node.reference_bit = true
    · right
      refine ⟨_, victimLoop_clear fuel r node hget hpin hbit, ?_, ?_, ?_, rfl, ?_⟩
      · exact setBits_set_clear r.pages r.current_index node hget hpin hbit
      · exact List.length_set r.pages _ _
      · exact (samePins_count (samePins_set_clear r.pages r.current_index node hget)).symm
      · show (r.current_index + 1) % r.pages.length < (r.pages.set _ _).length
        rw [List.length_set]
        exact Nat.mod_lt _ hlen
    · left
      have hbit2 : node.reference_bit = false := by simpa using hbit
      exact ⟨_, victimLoop_select fuel r node hget hpin hbit2⟩
  | succ d ih =>
    intro r fuel hidx hfound hmin
    have hlen : 0 < r.pages.length := by omega
    have hi0 : (r.current_index + 0) % r.pages.length = r.current_index := by
      rw [Nat.add_zero, Nat.mod_eq_of_lt hidx]
    have hnode0 := hmin 0 (by omega)
    rw [hi0, List.get?_eq_get hidx] at hnode0
    set node := r.pages.get ⟨r.current_index, hidx⟩ with hnodedef
    have hpin : node.pin_num ≠ 0 := by
      intro h
      exact hnode0 (by simp [h])
    have hstep : fuel + (d + 1 + 1) = (fuel + (d + 1)) + 1 := by omega
    rw [hstep, victimLoop_skip (fuel + (d + 1)) r node (List.get?_eq_get hidx) hpin]
    set r2a : LRUReplacer :=
      { r with current_index := (r.current_index + 1) % r.pages.length } with hr2a
    have hidx2 : r2a.current_index < r2a.pages.length := Nat.mod_lt _ hlen
    have hfound2 :
        (r2a.pages.get? ((r2a.current_index + d) % r2a.pages.length)).map PageNode.pin_num
          = some 0 := by
      show (r.pages.get? (((r.current_index + 1) % r.pages.length + d) % r.pages.length)).map
        PageNode.pin_num = some 0
      rw [cycStep]
      exact hfound
    have hmin2 : ∀ e < d,
        (r2a.pages.get? ((r2a.current_index + e) % r2a.pages.length)).map PageNode.pin_num
          ≠ some 0 := by
      intro e he
      show (r.pages.get? (((r.current_index + 1) % r.pages.length + e) % r.pages.length)).map
        PageNode.pin_num ≠ some 0
      rw [cycStep]
      exact hmin (e + 1) (by omega)
    rcases ih r2a fuel hidx2 hfound2 hmin2 with ⟨res, hres⟩ | ⟨r3, heq, h1, h2, h3, h4, h5⟩
    · exact Or.inl ⟨res, hres⟩
    · exact Or.inr ⟨r3, heq, h1, h2, h3, h4, h5⟩

theorem victimLoop_done : ∀ (B : Nat) (r : LRUReplacer) (fuel : Nat),
    setBits r.pages ≤ B →
    r.current_index < r.pages.length →
    0 < countUnpinned r.pages →
    (B + 1) * r.pages.length ≤ fuel →
    ∃ res, victimLoop fuel r = some res := by
  intro B
  induction B with
  | zero =>
    intro r fuel hB hidx hcnt hfuel
    have hlen : 0 < r.pages.length := by omega
    obtain ⟨j, hj, hjpin⟩ := countUnpinned_pos r.pages hcnt
    have hP0 : (r.pages.get? ((r.current_index + (j + r.pages.length - r.current_index)
        % r.pages.length) % r.pages.length)).map PageNode.pin_num = some 0 := by
      have hle : r.current_index ≤ j + r.pages.length := by omega
      rw [Nat.add_mod_mod, Nat.add_sub_cancel' hle, Nat.add_mod_right,
        Nat.mod_eq_of_lt hj, List.get?_eq_get hj]
      simpa using hjpin
    have hex : ∃ e, (r.pages.get? ((r.current_index + e) % r.pages.length)).map
        PageNode.pin_num = some 0 := ⟨_, hP0⟩
    have hdlt : Nat.find hex < r.pages.length :=
      Nat.lt_of_le_of_lt (Nat.find_min' hex hP0) (Nat.mod_lt _ hlen)
    have hdfuel : Nat.find hex + 1 ≤ fuel := by
      have h1 : r.pages.length ≤ (0 + 1) * r.pages.length := by omega
      omega
    have hsplit : fuel = (fuel - (Nat.find hex + 1)) + (Nat.find hex + 1) := by omega
    rw [hsplit]
    rcases victimLap (Nat.find hex) r (fuel - (Nat.find hex + 1)) hidx
        (Nat.find_spec hex) (fun e he => Nat.find_min hex he) with ⟨res, hres⟩ | ⟨r2, _, hsb, _⟩
    · exact ⟨res, hres⟩
    · omega
  | succ B ih =>
    intro r fuel hB hidx hcnt hfuel
    have hlen : 0 < r.pages.length := by omega
    obtain ⟨j, hj, hjpin⟩ := countUnpinned_pos r.pages hcnt
    have hP0 : (r.pages.get? ((r.current_index + (j + r.pages.length - r.current_index)
        % r.pages.length) % r.pages.length)).map PageNode.pin_num = some 0 := by
      have hle : r.current_index ≤ j + r.pages.length := by omega
      rw [Nat.add_mod_mod, Nat.add_sub_cancel' hle, Nat.add_mod_right,
        Nat.mod_eq_of_lt hj, List.get?_eq_get hj]
      simpa using hjpin
    have hex : ∃ e, (r.pages.get? ((r.current_index + e) % r.pages.length)).map
        PageNode.pin_num = some 0 := ⟨_, hP0⟩
    have hdlt : Nat.find hex < r.pages.length :=
      Nat.lt_of_le_of_lt (Nat.find_min' hex hP0) (Nat.mod_lt _ hlen)
    have hmul : (B + 1 + 1) * r.pages.length = (B + 1) * r.pages.length + r.pages.length := by
      rw [Nat.succ_mul]
    have hdfuel : Nat.find hex + 1 ≤ fuel := by omega
    have hsplit : fuel = (fuel - (Nat.find hex + 1)) + (Nat.find hex + 1) := by omega
    rw [hsplit]
    rcases victimLap (Nat.find hex) r (fuel - (Nat.find hex + 1)) hidx
        (Nat.find_spec hex) (fun e he => Nat.find_min hex he) with ⟨res, hres⟩ |
        ⟨r2, heq, hsb, hlen2, hcnt2, _, hidx2⟩
    · exact ⟨res, hres⟩
    · rw [heq]
      apply ih r2 (fuel - (Nat.find hex + 1)) (by omega) hidx2 (by omega)
      rw [hlen2]
      omega

theorem map_eraseIdx {α β : Type} (f : α → β) :
    ∀ (l : List α) (k : Nat), (l.eraseIdx k).map f = (l.map f).eraseIdx k := by
  intro l
  induction l with
  | nil => intro k; rfl
  | cons x xs ih =>
    intro k
    cases k with
    | zero => rfl
    | succ j =>
      rw [List.eraseIdx_cons_succ, List.map_cons, List.map_cons,
        List.eraseIdx_cons_succ, ih]

theorem get_not_mem_eraseIdx {α : Type} :
    ∀ (xs : List α) (k : Nat) (hk : k < xs.length), xs.Nodup →
      xs.get ⟨k, hk⟩ ∉ xs.eraseIdx k := by
  intro xs
  induction xs with
  | nil => intro k hk; simp at hk
  | cons x rest ih =>
    intro k hk hnd
    rw [List.nodup_cons] at hnd
    cases k with
    | zero =>
      rw [List.eraseIdx_cons_zero]
      exact hnd.1
    | succ j =>
      rw [List.eraseIdx_cons_succ]
      intro hmem
      rcases List.mem_cons.mp hmem with hm | hm
      · have : rest.get ⟨j, by simpa using hk⟩ ∈ rest := List.get_mem _ _ _
        rw [show (x :: rest).get ⟨j + 1, hk⟩ = rest.get ⟨j, by simpa using hk⟩ from rfl] at hm
        exact hnd.1 (hm ▸ this)
      · exact ih j (by simpa using hk) hnd.2 hm

theorem countUnpinned_eraseIdx :
    ∀ (l : List PageNode) (k : Nat) (hk : k < l.length),
      (l.get ⟨k, hk⟩).pin_num = 0 →
      countUnpinned (l.eraseIdx k) + 1 = countUnpinned l := by
  intro l
  induction l with
  | nil => intro k hk; simp at hk
  | cons n rest ih =>
    intro k hk hpin
    cases k with
    | zero =>
      rw [List.eraseIdx_cons_zero, countUnpinned_cons]
      rw [show (n :: rest).get ⟨0, hk⟩ = n from rfl] at hpin
      simp [hpin]
      omega
    | succ j =>
      rw [List.eraseIdx_cons_succ, countUnpinned_cons, countUnpinned_cons]
      rw [show (n :: rest).get ⟨j + 1, hk⟩ = rest.get ⟨j, by simpa using hk⟩ from rfl] at hpin
      have h2 := ih j (by simpa using hk) hpin
      omega

theorem Victim_some (r : LRUReplacer) (hWF : r.WF) (hsz : 0 < r.size) :
    ∃ p r2, r.Victim = some (p, r2) := by
  have hcnt : 0 < countUnpinned r.pages := hWF.sizeEq ▸ hsz
  have hne : r.pages ≠ [] := by
    intro h
    rw [h] at hcnt
    simp [countUnpinned] at hcnt
  have hidx : r.current_index < r.pages.length := by
    rcases hWF.idxOk with h | h
    · exact h
    · exact absurd h.1 hne
  have hfuel : (setBits r.pages + 1) * r.pages.length ≤ victimFuel r := by
    have h1 := setBits_le_length r.pages
    have h2 : (setBits r.pages + 1) * r.pages.length
        ≤ (r.pages.length + 1) * r.pages.length :=
      Nat.mul_le_mul_right _ (by omega)
    have h3 : (r.pages.length + 1) * r.pages.length
        = r.pages.length * r.pages.length + r.pages.length := by
      rw [Nat.succ_mul]
    simp only [victimFuel]
    omega
  obtain ⟨res, hres⟩ :=
    victimLoop_done (setBits r.pages) r (victimFuel r) (le_refl _) hidx hcnt hfuel
  refine ⟨res.1, res.2, ?_⟩
  simp only [LRUReplacer.Victim, if_neg (by omega : ¬ r.size = 0)]
  rw [hres]

theorem Victim_spec (r : LRUReplacer) (hWF : r.WF) (p : Int) (r2 : LRUReplacer)
    (h : r.Victim = some (p, r2)) :
    (∃ node ∈ r.pages, node.page_id = p ∧ node.pin_num = 0) ∧
    r2.WF ∧
    p ∉ idsOf r2.pages ∧
    (∀ q ∈ idsOf r2.pages, q ∈ idsOf r.pages) ∧
    (∀ n ∈ r2.pages, ∃ m ∈ r.pages, m.page_id = n.page_id ∧ m.pin_num = n.pin_num) ∧
    r2.size = r.size - 1 ∧ r2.capacity = r.capacity := by
  by_cases hsz : r.size = 0
  · rw [LRUReplacer.Victim, if_pos hsz] at h
    exact absurd h (by simp)
  · rw [LRUReplacer.Victim, if_neg hsz] at h
    obtain ⟨l, k, hk, hsp, hpin, hpid, hpg, hszEq, hcap, hidxEq⟩ :=
      victimLoop_sound (victimFuel r) r p r2 h
    have hlenEq : r.pages.length = l.length := samePins_length hsp
    have hk2 : k < r.pages.length := by omega
    obtain ⟨_, hgets⟩ := List.forall₂_iff_get.mp hsp
    have hcorr := hgets k hk2 hk
    have hcntEq : countUnpinned r.pages = countUnpinned l := samePins_count hsp
    have hidsEq : idsOf r.pages = idsOf l := samePins_ids hsp
    have hidsErase : idsOf (l.eraseIdx k) = (idsOf l).eraseIdx k := map_eraseIdx _ l k
    have hcntErase := countUnpinned_eraseIdx l k hk hpin
    have hcntLe := countUnpinned_le_length l
    have hlenErase : (l.eraseIdx k).length = l.length - 1 := by
      rw [List.length_eraseIdx, if_pos hk]
    refine ⟨?_, ?_, ?_, ?_, ?_, hszEq, hcap⟩
    · refine ⟨r.pages.get ⟨k, hk2⟩, List.get_mem _ _ _, ?_, ?_⟩
      · rw [hcorr.1, ← hpid]
      · rw [hcorr.2, hpin]
    · constructor
      · rw [hszEq, hWF.sizeEq, hcntEq, hpg]
        omega
      · rw [hidxEq, hpg]
        have hszcnt : r.size = countUnpinned l := by rw [hWF.sizeEq, hcntEq]
        by_cases hz : r.size - 1 ≠ 0
        · left
          rw [if_pos hz, hlenErase]
          have hmod : k % (r.size - 1) < r.size - 1 := Nat.mod_lt _ (by omega)
          omega
        · rw [if_neg hz]
          by_cases hlz : (l.eraseIdx k).length = 0
          · right
            exact ⟨List.length_eq_zero.mp hlz, rfl⟩
          · left
            omega
      · rw [hpg, hidsErase]
        exact ((idsOf l).eraseIdx_sublist k).nodup (hidsEq ▸ hWF.nodupIds)
    · rw [hpg, hidsErase]
      intro hmem
      have hknd : (idsOf l).Nodup := hidsEq ▸ hWF.nodupIds
      have hgetIds : (idsOf l).get ⟨k, by simpa [idsOf] using hk⟩ = (l.get ⟨k, hk⟩).page_id := by
        simp [idsOf]
      have hnotmem := get_not_mem_eraseIdx (idsOf l) k (by simpa [idsOf] using hk) hknd
      rw [hgetIds, ← hpid] at hnotmem
      exact hnotmem hmem
    · intro q hq
      rw [hpg, hidsErase] at hq
      rw [hidsEq]
      exact ((idsOf l).eraseIdx_sublist k).subset hq
    · intro n hn
      rw [hpg] at hn
      exact samePins_mem_right hsp n ((l.eraseIdx_sublist k).subset hn)

theorem Victim_none_iff (r : LRUReplacer) (hWF : r.WF) :
    r.Victim = none ↔ r.size = 0 := by
  constructor
  · intro h
    by_contra hsz
    obtain ⟨p, r2, hsome⟩ := Victim_some r hWF (by omega)
    rw [h] at hsome
    exact absurd hsome (by simp)
  · intro h
    rw [LRUReplacer.Victim, if_pos h]

/-- First tracked node carrying an id (the linear search of the source). -/
def findNode : List PageNode → Int → Option PageNode
  | [], _ => none
  | n :: rest, id => if n.page_id = id then some n else findNode rest id

theorem unpinGo_found_unpinned (id : Int) : ∀ (l : List PageNode) (node : PageNode),
    findNode l id = some node → node.pin_num = 0 → unpinGo l id = some (l, false) := by
  intro l
  induction l with
  | nil => intro node h; simp [findNode] at h
  | cons n rest ih =>
    intro node hfind hpin
    by_cases hn : n.page_id = id
    · simp [findNode, hn] at hfind
      subst hfind
      simp [unpinGo, hn, hpin]
    · simp only [findNode, if_neg hn] at hfind
      simp [unpinGo, hn, ih node hfind hpin]

theorem updPages_self (ps : Nat → Page) (f : Nat) (pg : Page) :
    updPages ps f pg f = pg := by
  simp [updPages]

theorem updPages_ne (ps : Nat → Page) (f : Nat) (pg : Page) (g : Nat) (h : g ≠ f) :
    updPages ps f pg g = ps g := by
  simp [updPages, h]

theorem mem_idsOf (q : Int) (l : List PageNode) :
    q ∈ idsOf l ↔ ∃ m ∈ l, m.page_id = q := by
  simp [idsOf]

/-- Inductive invariant of the buffer pool manager reachable under
fetch/unpin sequences: page-table consistency, free-list frames hold the
sentinel id, and the replacer tracks only resident pages whose eligible
(unpinned) entries correspond to frames with pin count zero. -/
structure BPMInv (s : BPM) : Prop where
  tKeys : ∀ p f, tblFind s.page_table p = some f → 0 ≤ p
  tPage : ∀ p f, tblFind s.page_table p = some f → (s.pages f).page_id = p
  tInj : ∀ p q f, tblFind s.page_table p = some f →
    tblFind s.page_table q = some f → p = q
  tNodup : (tblKeys s.page_table).Nodup
  frFree : ∀ f ∈ s.free_list, (s.pages f).page_id = -1
  frNodup : s.free_list.Nodup
  rWF : s.replacer.WF
  rRes : ∀ node ∈ s.replacer.pages, ∃ f, tblFind s.page_table node.page_id = some f
  rKey : ∀ node ∈ s.replacer.pages, node.pin_num = 0 →
    ∀ f, tblFind s.page_table node.page_id = some f → (s.pages f).pin_count = 0

theorem Inv_init (n : Nat) : BPMInv (initBPM n) := by
  constructor
  · intro p f h; simp [initBPM, tblFind] at h
  · intro p f h; simp [initBPM, tblFind] at h
  · intro p q f h; simp [initBPM, tblFind] at h
  · simp [initBPM, tblKeys]
  · intro f _; rfl
  · exact List.nodup_range n
  · exact ⟨rfl, Or.inr ⟨rfl, rfl⟩, by simp [initBPM, LRUReplacer.init, idsOf]⟩
  · intro node h; simp [initBPM, LRUReplacer.init] at h
  · intro node h; simp [initBPM, LRUReplacer.init] at h

theorem Inv_unpin (s : BPM) (p : Int) (d : Bool) (h : BPMInv s) :
    BPMInv (UnpinPageImpl s p d).2 := by
  obtain ⟨tKeys, tPage, tInj, tNodup, frFree, frNodup, rWF, rRes, rKey⟩ := h
  cases hfind : tblFind s.page_table p with
  | none =>
    simp only [UnpinPageImpl, hfind]
    exact ⟨tKeys, tPage, tInj, tNodup, frFree, frNodup, rWF, rRes, rKey⟩
  | some f =>
    have hfne : ∀ g ∈ s.free_list, g ≠ f := by
      intro g hg hgf
      have h1 := frFree g hg
      have h2 := tPage p f hfind
      have h3 := tKeys p f hfind
      rw [hgf, h2] at h1
      omega
    simp only [UnpinPageImpl, hfind]
    by_cases hle : (s.pages f).pin_count - 1 ≤ 0
    · rw [if_pos hle]
      have hPage : ∀ (q : Int) (g : Nat), tblFind s.page_table q = some g →
          (updPages s.pages f
            ({ s.pages f with is_dirty := d, pin_count := 0 }) g).page_id = q := by
        intro q g hq
        by_cases hgf : g = f
        · subst hgf
          rw [updPages_self]
          exact tPage q g hq
        · rw [updPages_ne _ _ _ _ hgf]
          exact tPage q g hq
      have hFree : ∀ g ∈ s.free_list,
          (updPages s.pages f
            ({ s.pages f with is_dirty := d, pin_count := 0 }) g).page_id = -1 := by
        intro g hg
        rw [updPages_ne _ _ _ _ (hfne g hg)]
        exact frFree g hg
      have hRes : ∀ node ∈ (s.replacer.Unpin p).pages,
          ∃ g, tblFind s.page_table node.page_id = some g := by
        intro node hnode
        rcases Unpin_src s.replacer p node hnode with hsrc | hsrc
        · exact rRes node hsrc
        · exact ⟨f, hsrc.1.symm ▸ hfind⟩
      have hKey : ∀ node ∈ (s.replacer.Unpin p).pages, node.pin_num = 0 →
          ∀ g, tblFind s.page_table node.page_id = some g →
            (updPages s.pages f
              ({ s.pages f with is_dirty := d, pin_count := 0 }) g).pin_count = 0 := by
        intro node hnode hpin g hg
        by_cases hq : node.page_id = p
        · have hgf : f = g := Option.some.inj (hfind.symm.trans (hq ▸ hg))
          rw [← hgf, updPages_self]
        · rcases Unpin_src s.replacer p node hnode with hsrc | hsrc
          · have hgf : ¬ g = f := fun hgf =>
              hq (tInj node.page_id p g hg (hgf.symm ▸ hfind))
            rw [updPages_ne _ _ _ _ hgf]
            exact rKey node hsrc hpin g hg
          · exact absurd hsrc.1 hq
      exact ⟨tKeys, hPage, tInj, tNodup, hFree, frNodup, Unpin_WF _ _ rWF, hRes, hKey⟩
    · rw [if_neg hle]
      have hPage : ∀ (q : Int) (g : Nat), tblFind s.page_table q = some g →
          (updPages s.pages f
            ({ s.pages f with is_dirty := d, pin_count := (s.pages f).pin_count - 1 })
            g).page_id = q := by
        intro q g hq
        by_cases hgf : g = f
        · subst hgf
          rw [updPages_self]
          exact tPage q g hq
        · rw [updPages_ne _ _ _ _ hgf]
          exact tPage q g hq
      have hFree : ∀ g ∈ s.free_list,
          (updPages s.pages f
            ({ s.pages f with is_dirty := d, pin_count := (s.pages f).pin_count - 1 })
            g).page_id = -1 := by
        intro g hg
        rw [updPages_ne _ _ _ _ (hfne g hg)]
        exact frFree g hg
      have hKey : ∀ node ∈ s.replacer.pages, node.pin_num = 0 →
          ∀ g, tblFind s.page_table node.page_id = some g →
            (updPages s.pages f
              ({ s.pages f with is_dirty := d, pin_count := (s.pages f).pin_count - 1 })
              g).pin_count = 0 := by
        intro node hnode hpin g hg
        by_cases hq : node.page_id = p
        · exfalso
          have h0 := rKey node hnode hpin f (hq.symm ▸ hfind)
          omega
        · have hgf : ¬ g = f := fun hgf =>
            hq (tInj node.page_id p g hg (hgf.symm ▸ hfind))
          rw [updPages_ne _ _ _ _ hgf]
          exact rKey node hnode hpin g hg
      exact ⟨tKeys, hPage, tInj, tNodup, hFree, frNodup, rWF, rRes, hKey⟩

theorem Inv_repurpose (s : BPM) (rf : Nat) (p : Int) (hp : 0 ≤ p)
    (h : BPMInv s)
    (hfindp : tblFind s.page_table p = none)
    (hpold : p ≠ (s.pages rf).page_id)
    (hres_ne : ∀ q g, q ≠ (s.pages rf).page_id →
      tblFind s.page_table q = some g → g ≠ rf)
    (htr_ne : ∀ node ∈ s.replacer.pages, node.page_id ≠ (s.pages rf).page_id)
    (hfr_ne : ∀ g ∈ s.free_list, g ≠ rf) :
    BPMInv (repurpose s rf p).2 := by
  obtain ⟨tKeys, tPage, tInj, tNodup, frFree, frNodup, rWF, rRes, rKey⟩ := h
  have hnotin : p ∉ idsOf s.replacer.pages := by
    intro hmem
    obtain ⟨m, hm, hid⟩ := (mem_idsOf p s.replacer.pages).mp hmem
    obtain ⟨g, hg⟩ := rRes m hm
    rw [hid] at hg
    rw [hfindp] at hg
    exact absurd hg (by simp)
  have hPinEq : s.replacer.Pin p = s.replacer := Pin_not_tracked s.replacer p hnotin
  have hEr : ∀ q g, tblFind (tblErase s.page_table (s.pages rf).page_id) q = some g →
      tblFind s.page_table q = some g ∧ q ≠ (s.pages rf).page_id := by
    intro q g hq
    by_cases hqold : q = (s.pages rf).page_id
    · rw [hqold, tblFind_erase_self _ _ tNodup] at hq
      exact absurd hq (by simp)
    · rw [tblFind_erase_ne _ _ hqold] at hq
      exact ⟨hq, hqold⟩
  have holdfind : tblFind (tblErase s.page_table (s.pages rf).page_id) p = none := by
    rw [tblFind_erase_ne _ _ hpold]
    exact hfindp
  have hT2 : tblEmplace (tblErase s.page_table (s.pages rf).page_id) p rf
      = (p, rf) :: tblErase s.page_table (s.pages rf).page_id :=
    tblEmplace_of_none _ _ _ holdfind
  have hfind2 : ∀ q g,
      tblFind (tblEmplace (tblErase s.page_table (s.pages rf).page_id) p rf) q = some g →
      (q = p ∧ g = rf) ∨ (tblFind s.page_table q = some g ∧ q ≠ (s.pages rf).page_id ∧ q ≠ p) := by
    intro q g hq
    rw [hT2] at hq
    by_cases hqp : p = q
    · left
      subst hqp
      simp [tblFind] at hq
      exact ⟨rfl, hq.symm⟩
    · right
      simp only [tblFind, if_neg hqp] at hq
      obtain ⟨h1, h2⟩ := hEr q g hq
      exact ⟨h1, h2, fun hh => hqp hh.symm⟩
  have hfindP : ∀ g,
      tblFind (tblEmplace (tblErase s.page_table (s.pages rf).page_id) p rf) p = some g →
      g = rf := by
    intro g hg
    rw [hT2] at hg
    simp [tblFind] at hg
    exact hg.symm
  have hfindOther : ∀ q, q ≠ p → q ≠ (s.pages rf).page_id →
      tblFind (tblEmplace (tblErase s.page_table (s.pages rf).page_id) p rf) q
        = tblFind s.page_table q := by
    intro q hq1 hq2
    rw [hT2]
    simp only [tblFind, if_neg (fun hh : p = q => hq1 hh.symm)]
    exact tblFind_erase_ne _ _ hq2 s.page_table
  have hKeys : ∀ q g,
      tblFind (tblEmplace (tblErase s.page_table (s.pages rf).page_id) p rf) q = some g →
      0 ≤ q := by
    intro q g hq
    rcases hfind2 q g hq with ⟨hq1, _⟩ | ⟨hq1, _, _⟩
    · rw [hq1]; exact hp
    · exact tKeys q g hq1
  have hPage : ∀ (dat : Nat) (q : Int) (g : Nat),
      tblFind (tblEmplace (tblErase s.page_table (s.pages rf).page_id) p rf) q = some g →
      (updPages s.pages rf
        ({ page_id := p, pin_count := 1, is_dirty := false, data := dat }) g).page_id = q := by
    intro dat q g hq
    rcases hfind2 q g hq with ⟨hq1, hq2⟩ | ⟨hq1, hq2, _⟩
    · subst hq1; subst hq2
      rw [updPages_self]
    · have hgrf : g ≠ rf := hres_ne q g hq2 hq1
      rw [updPages_ne _ _ _ _ hgrf]
      exact tPage q g hq1
  have hInj : ∀ q1 q2 g,
      tblFind (tblEmplace (tblErase s.page_table (s.pages rf).page_id) p rf) q1 = some g →
      tblFind (tblEmplace (tblErase s.page_table (s.pages rf).page_id) p rf) q2 = some g →
      q1 = q2 := by
    intro q1 q2 g h1 h2
    rcases hfind2 q1 g h1 with ⟨ha1, ha2⟩ | ⟨ha1, ha2, ha3⟩ <;>
      rcases hfind2 q2 g h2 with ⟨hb1, hb2⟩ | ⟨hb1, hb2, hb3⟩
    · rw [ha1, hb1]
    · exact absurd (hres_ne q2 g hb2 hb1) (by simp [ha2])
    · exact absurd (hres_ne q1 g ha2 ha1) (by simp [hb2])
    · exact tInj q1 q2 g ha1 hb1
  have hNodup :
      (tblKeys (tblEmplace (tblErase s.page_table (s.pages rf).page_id) p rf)).Nodup := by
    rw [hT2, tblKeys_cons, List.nodup_cons]
    constructor
    · intro hmem
      exact not_mem_keys_of_find_none p s.page_table hfindp
        ((tblKeys_erase_sublist _ s.page_table).subset hmem)
    · exact (tblKeys_erase_sublist _ s.page_table).nodup tNodup
  have hFree : ∀ (dat : Nat), ∀ g ∈ s.free_list,
      (updPages s.pages rf
        ({ page_id := p, pin_count := 1, is_dirty := false, data := dat }) g).page_id = -1 := by
    intro dat g hg
    rw [updPages_ne _ _ _ _ (hfr_ne g hg)]
    exact frFree g hg
  have hrWF : (s.replacer.Pin p).WF := by
    rw [hPinEq]
    exact rWF
  have hRes : ∀ node ∈ (s.replacer.Pin p).pages,
      ∃ g, tblFind (tblEmplace (tblErase s.page_table (s.pages rf).page_id) p rf)
        node.page_id = some g := by
    intro node hnode
    rw [hPinEq] at hnode
    obtain ⟨g, hg⟩ := rRes node hnode
    have hnp : node.page_id ≠ p := by
      intro hh
      rw [hh, hfindp] at hg
      exact absurd hg (by simp)
    refine ⟨g, ?_⟩
    rw [hfindOther node.page_id hnp (htr_ne node hnode)]
    exact hg
  have hKey : ∀ (dat : Nat), ∀ node ∈ (s.replacer.Pin p).pages, node.pin_num = 0 →
      ∀ g, tblFind (tblEmplace (tblErase s.page_table (s.pages rf).page_id) p rf)
          node.page_id = some g →
      (updPages s.pages rf
        ({ page_id := p, pin_count := 1, is_dirty := false, data := dat }) g).pin_count = 0 := by
    intro dat node hnode hpin g hg
    rw [hPinEq] at hnode
    rcases hfind2 node.page_id g hg with ⟨hq1, _⟩ | ⟨hq1, hq2, _⟩
    · exfalso
      obtain ⟨g2, hg2⟩ := rRes node hnode
      rw [hq1, hfindp] at hg2
      exact absurd hg2 (by simp)
    · have hgrf : g ≠ rf := hres_ne node.page_id g hq2 hq1
      rw [updPages_ne _ _ _ _ hgrf]
      exact rKey node hnode hpin g hq1
  by_cases hd : (s.pages rf).is_dirty = true
  · simp only [repurpose]
    rw [if_pos hd]
    exact ⟨hKeys, hPage _, hInj, hNodup, hFree _, frNodup, hrWF, hRes, hKey _⟩
  · simp only [repurpose]
    rw [if_neg hd]
    exact ⟨hKeys, hPage _, hInj, hNodup, hFree _, frNodup, hrWF, hRes, hKey _⟩

theorem Inv_fetch (s : BPM) (p : Int) (hp : 0 ≤ p) (h : BPMInv s) :
    BPMInv (FetchPageImpl s p).2 := by
  obtain ⟨tKeys, tPage, tInj, tNodup, frFree, frNodup, rWF, rRes, rKey⟩ := h
  cases hfind : tblFind s.page_table p with
  | some f =>
    have hfne : ∀ g ∈ s.free_list, g ≠ f := by
      intro g hg hgf
      have h1 := frFree g hg
      have h2 := tPage p f hfind
      have h3 := tKeys p f hfind
      rw [hgf, h2] at h1
      omega
    simp only [FetchPageImpl, hfind]
    have hPage : ∀ (q : Int) (g : Nat), tblFind s.page_table q = some g →
        (updPages s.pages f
          ({ s.pages f with pin_count := (s.pages f).pin_count + 1 }) g).page_id = q := by
      intro q g hq
      by_cases hgf : g = f
      · subst hgf
        rw [updPages_self]
        exact tPage q g hq
      · rw [updPages_ne _ _ _ _ hgf]
        exact tPage q g hq
    have hFree : ∀ g ∈ s.free_list,
        (updPages s.pages f
          ({ s.pages f with pin_count := (s.pages f).pin_count + 1 }) g).page_id = -1 := by
      intro g hg
      rw [updPages_ne _ _ _ _ (hfne g hg)]
      exact frFree g hg
    have hRes : ∀ node ∈ (s.replacer.Pin p).pages,
        ∃ g, tblFind s.page_table node.page_id = some g := by
      intro node hnode
      have hmem : node.page_id ∈ idsOf s.replacer.pages := by
        rw [← Pin_ids s.replacer p]
        exact List.mem_map_of_mem _ hnode
      obtain ⟨m, hm, hid⟩ := (mem_idsOf _ _).mp hmem
      obtain ⟨g, hg⟩ := rRes m hm
      exact ⟨g, hid ▸ hg⟩
    have hKey : ∀ node ∈ (s.replacer.Pin p).pages, node.pin_num = 0 →
        ∀ g, tblFind s.page_table node.page_id = some g →
          (updPages s.pages f
            ({ s.pages f with pin_count := (s.pages f).pin_count + 1 }) g).pin_count = 0 := by
      intro node hnode hpin g hg
      have hmem : node ∈ s.replacer.pages := Pin_unpinned_mem s.replacer p node hnode hpin
      have hne : node.page_id ≠ p := Pin_unpinned_ne s.replacer p rWF.nodupIds node hnode hpin
      have hgf : ¬ g = f := fun hgf => hne (tInj node.page_id p g hg (hgf.symm ▸ hfind))
      rw [updPages_ne _ _ _ _ hgf]
      exact rKey node hmem hpin g hg
    exact ⟨tKeys, hPage, tInj, tNodup, hFree, frNodup, Pin_WF s.replacer p rWF, hRes, hKey⟩
  | none =>
    simp only [FetchPageImpl, hfind]
    by_cases hguard : s.free_list = [] ∧ LRUReplacer.Size s.replacer = 0
    · rw [if_pos hguard]
      exact ⟨tKeys, tPage, tInj, tNodup, frFree, frNodup, rWF, rRes, rKey⟩
    · rw [if_neg hguard]
      cases hfl : s.free_list with
      | cons rf rest =>
        have hmemrf : rf ∈ s.free_list := by rw [hfl]; exact List.mem_cons_self _ _
        have hold : (s.pages rf).page_id = -1 := frFree rf hmemrf
        have hnd2 : rf ∉ rest ∧ rest.Nodup := by
          have := frNodup
          rw [hfl, List.nodup_cons] at this
          exact this
        apply Inv_repurpose _ rf p hp
        · refine ⟨tKeys, tPage, tInj, tNodup, ?_, hnd2.2, rWF, rRes, rKey⟩
          intro g hg
          exact frFree g (by rw [hfl]; exact List.mem_cons_of_mem _ hg)
        · exact hfind
        · show p ≠ (s.pages rf).page_id
          rw [hold]
          omega
        · show ∀ q g, q ≠ (s.pages rf).page_id → tblFind s.page_table q = some g → g ≠ rf
          intro q g hq hqf hgrf
          apply hq
          have h1 := tPage q g hqf
          rw [hgrf] at h1
          exact h1.symm
        · show ∀ node ∈ s.replacer.pages, node.page_id ≠ (s.pages rf).page_id
          intro node hnode
          obtain ⟨g, hg⟩ := rRes node hnode
          have h0 := tKeys node.page_id g hg
          rw [hold]
          omega
        · show ∀ g ∈ rest, g ≠ rf
          intro g hg hgrf
          exact hnd2.1 (hgrf ▸ hg)
      | nil =>
        have hsz : 0 < s.replacer.size := by
          rcases Nat.eq_zero_or_pos s.replacer.size with hz | hz
          · exact absurd ⟨hfl, hz⟩ hguard
          · exact hz
        obtain ⟨v, r1, hvic⟩ := Victim_some s.replacer rWF hsz
        obtain ⟨⟨nodev, hnodev, hvid, hvpin⟩, hWF1, hnotv, hsub1, htrans, _, _⟩ :=
          Victim_spec s.replacer rWF v r1 hvic
        obtain ⟨fv, hfv⟩ := rRes nodev hnodev
        rw [hvid] at hfv
        have holdv : (s.pages fv).page_id = v := tPage v fv hfv
        have hInv2 : BPMInv { s with free_list := [], replacer := r1 } := by
          refine ⟨tKeys, tPage, tInj, tNodup, ?_, List.nodup_nil, hWF1, ?_, ?_⟩
          · intro g hg
            exact absurd hg (List.not_mem_nil g)
          · intro node hnode
            obtain ⟨m, hm, hid, _⟩ := htrans node hnode
            obtain ⟨g, hg⟩ := rRes m hm
            exact ⟨g, hid ▸ hg⟩
          · intro node hnode hpin g hg
            obtain ⟨m, hm, hid, hpineq⟩ := htrans node hnode
            have hkey := rKey m hm (by rw [hpineq, hpin]) g (hid.symm ▸ hg)
            exact hkey
        simp only [hvic, hfv]
        apply Inv_repurpose _ fv p hp hInv2
        · exact hfind
        · show p ≠ (s.pages fv).page_id
          rw [holdv]
          intro hh
          rw [hh, hfv] at hfind
          exact absurd hfind (by simp)
        · show ∀ q g, q ≠ (s.pages fv).page_id → tblFind s.page_table q = some g → g ≠ fv
          intro q g hq hqf hgrf
          apply hq
          rw [holdv]
          exact tInj q v fv (hgrf ▸ hqf) hfv
        · show ∀ node ∈ r1.pages, node.page_id ≠ (s.pages fv).page_id
          intro node hnode hid
          rw [holdv] at hid
          exact hnotv (hid ▸ List.mem_map_of_mem _ hnode)
        · intro g hg
          exact absurd hg (List.not_mem_nil g)

theorem Inv_applyFU (s : BPM) (op : FUOp) (hop : opOk op) (h : BPMInv s) :
    BPMInv (applyFU s op) := by
  cases op with
  | fetch p => exact Inv_fetch s p hop h
  | unpin p d => exact Inv_unpin s p d h

theorem Inv_runFU : ∀ (ops : List FUOp) (s : BPM), (∀ op ∈ ops, opOk op) → BPMInv s →
    BPMInv (runFU s ops) := by
  intro ops
  induction ops with
  | nil => intro s _ h; exact h
  | cons op rest ih =>
    intro s hops h
    exact ih (applyFU s op)
      (fun o ho => hops o (List.mem_cons_of_mem _ ho))
      (Inv_applyFU s op (hops op (List.mem_cons_self _ _)) h)

/-- C1: over every sequence of FetchPage/UnpinPage operations on real page
ids, a page whose frame is pinned (pin count > 0) is never an eligible
(size-counted) candidate of the replacer, and is never the id returned by
the replacer Victim scan: every eligible node and every victim names a
resident page whose frame has pin count exactly 0, and Size counts exactly
the eligible nodes. -/
theorem c1_pinned_never_victim_nor_counted (n : Nat) (ops : List FUOp)
    (hops : ∀ op ∈ ops, opOk op) :
    (∀ node ∈ (runFU (initBPM n) ops).replacer.pages, node.pin_num = 0 →
       ∀ f, tblFind (runFU (initBPM n) ops).page_table node.page_id = some f →
         ((runFU (initBPM n) ops).pages f).pin_count = 0) ∧
    LRUReplacer.Size (runFU (initBPM n) ops).replacer
      = countUnpinned (runFU (initBPM n) ops).replacer.pages ∧
    (∀ v r2, (runFU (initBPM n) ops).replacer.Victim = some (v, r2) →
       ∀ f, tblFind (runFU (initBPM n) ops).page_table v = some f →
         ((runFU (initBPM n) ops).pages f).pin_count = 0) := by
  have hInv := Inv_runFU ops (initBPM n) hops (Inv_init n)
  refine ⟨hInv.rKey, hInv.rWF.sizeEq, ?_⟩
  intro v r2 hvic f hf
  obtain ⟨⟨nodev, hnodev, hvid, hvpin⟩, _⟩ :=
    Victim_spec _ hInv.rWF v r2 hvic
  exact hInv.rKey nodev hnodev hvpin f (hvid.symm ▸ hf)

/-- Witness for C1 at pool size 2 with the sequence fetch 0, unpin 0,
fetch 1: the tracked node for page 0 is eligible with its frame pin count 0,
and page 1 is pinned and untracked. -/
theorem c1_witness :
    (∀ op ∈ [FUOp.fetch 0, FUOp.unpin 0 true, FUOp.fetch 1], opOk op) ∧
    ((∀ node ∈ (runFU (initBPM 2) [FUOp.fetch 0, FUOp.unpin 0 true, FUOp.fetch 1]).replacer.pages,
        node.pin_num = 0 →
        ∀ f, tblFind (runFU (initBPM 2)
            [FUOp.fetch 0, FUOp.unpin 0 true, FUOp.fetch 1]).page_table node.page_id = some f →
          ((runFU (initBPM 2) [FUOp.fetch 0, FUOp.unpin 0 true, FUOp.fetch 1]).pages f).pin_count
            = 0) ∧
      LRUReplacer.Size (runFU (initBPM 2)
          [FUOp.fetch 0, FUOp.unpin 0 true, FUOp.fetch 1]).replacer
        = countUnpinned (runFU (initBPM 2)
            [FUOp.fetch 0, FUOp.unpin 0 true, FUOp.fetch 1]).replacer.pages ∧
      (∀ v r2, (runFU (initBPM 2)
            [FUOp.fetch 0, FUOp.unpin 0 true, FUOp.fetch 1]).replacer.Victim = some (v, r2) →
        ∀ f, tblFind (runFU (initBPM 2)
            [FUOp.fetch 0, FUOp.unpin 0 true, FUOp.fetch 1]).page_table v = some f →
          ((runFU (initBPM 2) [FUOp.fetch 0, FUOp.unpin 0 true, FUOp.fetch 1]).pages f).pin_count
            = 0)) :=
  ⟨by decide, c1_pinned_never_victim_nor_counted 2
    [FUOp.fetch 0, FUOp.unpin 0 true, FUOp.fetch 1] (by decide)⟩

/-- C7: on every well-formed replacer state with a non-empty eligible set,
the clock scan of Victim terminates with some id that was an eligible
(unpinned) tracked node, removes it from the tracked set and decrements
Size by one; Victim returns none exactly when the eligible set is empty. -/
theorem c7_victim_total_iff_nonempty (r : LRUReplacer) (hWF : r.WF) :
    (0 < LRUReplacer.Size r →
      ∃ p r2, r.Victim = some (p, r2) ∧
        (∃ node ∈ r.pages, node.page_id = p ∧ node.pin_num = 0) ∧
        p ∉ idsOf r2.pages ∧
        LRUReplacer.Size r2 = LRUReplacer.Size r - 1) ∧
    (r.Victim = none ↔ LRUReplacer.Size r = 0) := by
  constructor
  · intro hsz
    obtain ⟨p, r2, hsome⟩ := Victim_some r hWF hsz
    obtain ⟨hmem, _, hnot, _, _, hsz2, _⟩ := Victim_spec r hWF p r2 hsome
    exact ⟨p, r2, hsome, hmem, hnot, hsz2⟩
  · exact Victim_none_iff r hWF

/-- Witness for C7 on a two-node replacer holding one eligible node. -/
theorem c7_witness :
    (0 < LRUReplacer.Size ⟨0, 1, 2, [⟨false, 3, 0⟩]⟩ →
      ∃ p r2, LRUReplacer.Victim ⟨0, 1, 2, [⟨false, 3, 0⟩]⟩ = some (p, r2) ∧
        (∃ node ∈ ([⟨false, 3, 0⟩] : List PageNode), node.page_id = p ∧ node.pin_num = 0) ∧
        p ∉ idsOf r2.pages ∧
        LRUReplacer.Size r2 = LRUReplacer.Size ⟨0, 1, 2, [⟨false, 3, 0⟩]⟩ - 1) ∧
    (LRUReplacer.Victim ⟨0, 1, 2, [⟨false, 3, 0⟩]⟩ = none ↔
      LRUReplacer.Size ⟨0, 1, 2, [⟨false, 3, 0⟩]⟩ = 0) :=
  c7_victim_total_iff_nonempty ⟨0, 1, 2, [⟨false, 3, 0⟩]⟩
    ⟨by decide, by decide, by decide⟩

/-- C8 as stated is false: Unpin on an untracked id inserts the node with
its recency (reference) bit clear, not set, and Unpin on an id already
tracked and unpinned is a complete no-op (no recency refresh). -/
theorem c8_counterexample :
    (LRUReplacer.Unpin (LRUReplacer.init 2) 5).pages
        = [{ reference_bit := false, page_id := 5, pin_num := 0 }] ∧
    ¬ (∃ node ∈ (LRUReplacer.Unpin (LRUReplacer.init 2) 5).pages,
        node.page_id = 5 ∧ node.reference_bit = true) ∧
    LRUReplacer.Unpin (LRUReplacer.Unpin (LRUReplacer.init 2) 5) 5
        = LRUReplacer.Unpin (LRUReplacer.init 2) 5 := by
  refine ⟨by decide, ?_, by decide⟩
  decide

/-- C8 amended: Unpin on an untracked id (below capacity) appends a node
with recency bit clear and pin 0 and increments size; Unpin on an id whose
first tracked node is already unpinned changes nothing at all. -/
theorem c8_unpin_semantics (r : LRUReplacer) (id : Int) :
    (id ∉ idsOf r.pages → r.size ≠ r.capacity →
      r.Unpin id = { r with
        pages := r.pages ++ [{ reference_bit := false, page_id := id, pin_num := 0 }],
        size := r.size + 1 }) ∧
    (∀ node, findNode r.pages id = some node → node.pin_num = 0 → r.Unpin id = r) := by
  constructor
  · intro hmem hcap
    unfold LRUReplacer.Unpin
    rw [(unpinGo_none_iff id r.pages).mpr hmem, if_neg hcap]
  · intro node hfind hpin
    unfold LRUReplacer.Unpin
    rw [unpinGo_found_unpinned id r.pages node hfind hpin]
    rfl

/-- Witness for C8's amended statement: a fresh id is appended with a clear
bit, and unpinning the already-unpinned id 7 changes nothing. -/
theorem c8_witness :
    LRUReplacer.Unpin ⟨0, 1, 2, [⟨true, 7, 0⟩]⟩ 5
        = { current_index := 0, size := 2, capacity := 2,
            pages := [⟨true, 7, 0⟩, ⟨false, 5, 0⟩] } ∧
    LRUReplacer.Unpin ⟨0, 1, 2, [⟨true, 7, 0⟩]⟩ 7 = ⟨0, 1, 2, [⟨true, 7, 0⟩]⟩ := by
  constructor
  · rw [(c8_unpin_semantics ⟨0, 1, 2, [⟨true, 7, 0⟩]⟩ 5).1 (by decide) (by decide)]
    rfl
  · exact (c8_unpin_semantics ⟨0, 1, 2, [⟨true, 7, 0⟩]⟩ 7).2 ⟨true, 7, 0⟩ (by decide) (by decide)

/-- C9: UnpinPage on a resident page decrements the pin count by one floored
at zero: the resulting count is max(old - 1, 0), is never negative, and a
count already at 0 stays at 0. -/
theorem c9_pin_floor_at_zero (s : BPM) (p : Int) (d : Bool) (f : Nat)
    (hfind : tblFind s.page_table p = some f) :
    ((UnpinPageImpl s p d).2.pages f).pin_count = max ((s.pages f).pin_count - 1) 0 ∧
    0 ≤ ((UnpinPageImpl s p d).2.pages f).pin_count ∧
    ((s.pages f).pin_count = 0 → ((UnpinPageImpl s p d).2.pages f).pin_count = 0) := by
  simp only [UnpinPageImpl, hfind]
  by_cases hle : (s.pages f).pin_count - 1 ≤ 0
  · rw [if_pos hle]
    have hres :
        ((updPages s.pages f ({ s.pages f with is_dirty := d, pin_count := 0 })) f).pin_count
          = 0 := by
      rw [updPages_self]
    refine ⟨?_, ?_, fun _ => hres⟩
    · rw [hres, (max_eq_right (by omega) :
        max ((s.pages f).pin_count - 1) 0 = 0)]
    · rw [hres]
  · rw [if_neg hle]
    have hres : ((updPages s.pages f
        ({ s.pages f with is_dirty := d, pin_count := (s.pages f).pin_count - 1 })) f).pin_count
          = (s.pages f).pin_count - 1 := by
      rw [updPages_self]
    refine ⟨?_, ?_, ?_⟩
    · rw [hres, (max_eq_left (by omega) :
        max ((s.pages f).pin_count - 1) 0 = (s.pages f).pin_count - 1)]
    · rw [hres]; omega
    · intro h0; omega

/-- Witness for C9 on a one-frame pool holding freshly allocated page 0 with
pin count 1, unpinned once. -/
theorem c9_witness :
    tblFind (NewPageImpl (initBPM 1)).2.page_table 0 = some 0 ∧
    (((UnpinPageImpl (NewPageImpl (initBPM 1)).2 0 false).2.pages 0).pin_count
        = max (((NewPageImpl (initBPM 1)).2.pages 0).pin_count - 1) 0 ∧
      0 ≤ ((UnpinPageImpl (NewPageImpl (initBPM 1)).2 0 false).2.pages 0).pin_count ∧
      (((NewPageImpl (initBPM 1)).2.pages 0).pin_count = 0 →
        ((UnpinPageImpl (NewPageImpl (initBPM 1)).2 0 false).2.pages 0).pin_count = 0)) :=
  ⟨by decide, c9_pin_floor_at_zero (NewPageImpl (initBPM 1)).2 0 false 0 (by decide)⟩

/-- C3 amended: UnpinPage overwrites the resident frame's dirty flag with
the is_dirty argument (plain assignment, not a logical OR), so a later clean
unpin clears a previously set dirty flag. -/
theorem c3_unpin_overwrites_dirty (s : BPM) (p : Int) (d : Bool) (f : Nat)
    (hfind : tblFind s.page_table p = some f) :
    ((UnpinPageImpl s p d).2.pages f).is_dirty = d := by
  simp only [UnpinPageImpl, hfind]
  by_cases hle : (s.pages f).pin_count - 1 ≤ 0
  · rw [if_pos hle]
    show (updPages s.pages f ({ s.pages f with is_dirty := d, pin_count := 0 }) f).is_dirty = d
    rw [updPages_self]
  · rw [if_neg hle]
    show (updPages s.pages f
      ({ s.pages f with is_dirty := d, pin_count := (s.pages f).pin_count - 1 }) f).is_dirty = d
    rw [updPages_self]

/-- Witness for the amended C3 on a one-frame pool. -/
theorem c3_witness :
    tblFind (NewPageImpl (initBPM 1)).2.page_table 0 = some 0 ∧
    ((UnpinPageImpl (NewPageImpl (initBPM 1)).2 0 true).2.pages 0).is_dirty = true :=
  ⟨by decide, c3_unpin_overwrites_dirty (NewPageImpl (initBPM 1)).2 0 true 0 (by decide)⟩

/-- Scenario refuting C3: allocate page 0, unpin it dirty, fetch it again
(dirty flag still set), then unpin it clean. -/
def c3s3 : BPM :=
  (FetchPageImpl (UnpinPageImpl (NewPageImpl (initBPM 1)).2 0 true).2 0).2

/-- State after the final clean unpin of the C3 scenario. -/
def c3s4 : BPM := (UnpinPageImpl c3s3 0 false).2

/-- C3 as stated is false: after a dirty unpin and a re-fetch, the frame is
dirty, yet a further unpin with is_dirty = false leaves the flag false where
the claimed OR semantics would leave it true. -/
theorem c3_counterexample :
    (c3s3.pages 0).is_dirty = true ∧
    (c3s4.pages 0).is_dirty = false ∧
    ¬ ((c3s4.pages 0).is_dirty = ((c3s3.pages 0).is_dirty || false)) := by
  refine ⟨by decide, by decide, by decide⟩

/-- State with its single frame pinned by page 0: free list empty and
replacer size 0, the exhaustion condition of C4. -/
def c4s : BPM := (NewPageImpl (initBPM 1)).2

/-- C4 as stated is false: with the free list empty and the Replacer
reporting size 0, FetchPage of a resident page still succeeds (cache hit),
so failure is not equivalent to exhaustion alone. -/
theorem c4_counterexample :
    c4s.free_list = [] ∧ LRUReplacer.Size c4s.replacer = 0 ∧
    (FetchPageImpl c4s 0).1 = some 0 := by
  refine ⟨by decide, by decide, by decide⟩

/-- C4 amended: on states whose replacer is well-formed and tracks only
resident pages, FetchPage fails exactly when the page is NOT resident and
the free list is empty and the Replacer reports size 0; NewPage fails
exactly when the free list is empty and the Replacer reports size 0; in all
other cases a frame is obtained. -/
theorem c4_fail_iff_exhausted (s : BPM)
    (hWF : s.replacer.WF)
    (hres : ∀ node ∈ s.replacer.pages, ∃ f, tblFind s.page_table node.page_id = some f)
    (p : Int) :
    ((FetchPageImpl s p).1 = none ↔
      (tblFind s.page_table p = none ∧ s.free_list = [] ∧
        LRUReplacer.Size s.replacer = 0)) ∧
    ((NewPageImpl s).1 = none ↔
      (s.free_list = [] ∧ LRUReplacer.Size s.replacer = 0)) := by
  constructor
  · cases hfind : tblFind s.page_table p with
    | some f =>
      constructor
      · intro hnone
        simp [FetchPageImpl, hfind] at hnone
      · intro hcon
        exact absurd hcon.1 (by simp)
    | none =>
      by_cases hguard : s.free_list = [] ∧ LRUReplacer.Size s.replacer = 0
      · constructor
        · intro _
          exact ⟨rfl, hguard.1, hguard.2⟩
        · intro _
          simp [FetchPageImpl, hfind, hguard]
      · constructor
        · intro hnone
          exfalso
          cases hfl : s.free_list with
          | cons rf rest =>
            simp [FetchPageImpl, hfind, hfl, repurpose] at hnone
          | nil =>
            have hsz : LRUReplacer.Size s.replacer ≠ 0 := fun hh => hguard ⟨hfl, hh⟩
            obtain ⟨v, r1, hvic⟩ := Victim_some s.replacer hWF (Nat.pos_of_ne_zero hsz)
            obtain ⟨⟨nodev, hnodev, hvid, _⟩, _⟩ := Victim_spec s.replacer hWF v r1 hvic
            obtain ⟨fv, hfv⟩ := hres nodev hnodev
            rw [hvid] at hfv
            simp [FetchPageImpl, hfind, hfl, hvic, hfv, hsz, repurpose] at hnone
        · intro hcon
          exact absurd ⟨hcon.2.1, hcon.2.2⟩ hguard
  · by_cases hguard : LRUReplacer.Size s.replacer = 0 ∧ s.free_list = []
    · constructor
      · intro _
        exact ⟨hguard.2, hguard.1⟩
      · intro _
        simp [NewPageImpl, hguard]
    · constructor
      · intro hnone
        exfalso
        cases hfl : s.free_list with
        | cons rf rest =>
          simp [NewPageImpl, hfl, newInstall] at hnone
        | nil =>
          have hsz : LRUReplacer.Size s.replacer ≠ 0 := fun hh => hguard ⟨hh, hfl⟩
          obtain ⟨v, r1, hvic⟩ := Victim_some s.replacer hWF (Nat.pos_of_ne_zero hsz)
          obtain ⟨⟨nodev, hnodev, hvid, _⟩, _⟩ := Victim_spec s.replacer hWF v r1 hvic
          obtain ⟨fv, hfv⟩ := hres nodev hnodev
          rw [hvid] at hfv
          simp [NewPageImpl, hfl, hvic, hfv, hsz, newInstall] at hnone
      · intro hcon
        exact absurd ⟨hcon.2, hcon.1⟩ hguard

/-- Witness for the amended C4 on a freshly constructed one-frame pool:
nothing is resident, a free frame exists, so neither call fails. -/
theorem c4_witness :
    ((FetchPageImpl (initBPM 1) 0).1 = none ↔
      (tblFind (initBPM 1).page_table 0 = none ∧ (initBPM 1).free_list = [] ∧
        LRUReplacer.Size (initBPM 1).replacer = 0)) ∧
    ((NewPageImpl (initBPM 1)).1 = none ↔
      ((initBPM 1).free_list = [] ∧ LRUReplacer.Size (initBPM 1).replacer = 0)) :=
  c4_fail_iff_exhausted (initBPM 1) ⟨by decide, by simp [initBPM, LRUReplacer.init], by decide⟩
    (by simp [initBPM, LRUReplacer.init]) 0

/-- C5 scenario, step 1: NewPage on a one-frame pool returns page id 0. -/
def c5new : BPM := (NewPageImpl (initBPM 1)).2

/-- C5 scenario, step 2: the caller stores bytes B into page 0's frame. -/
def c5written (B : Nat) : BPM := WriteData c5new 0 B

/-- C5 scenario, step 3: page 0 unpinned dirty. -/
def c5unpinned (B : Nat) : BPM := (UnpinPageImpl (c5written B) 0 true).2

/-- C5 scenario, step 4: fetching page 1 evicts page 0, flushing B. -/
def c5evicted (B : Nat) : BPM := (FetchPageImpl (c5unpinned B) 1).2

/-- C5 scenario, step 5: page 1 unpinned clean so its frame is evictable. -/
def c5ready (B : Nat) : BPM := (UnpinPageImpl (c5evicted B) 1 false).2

/-- C5: round trip for every byte content B: NewPage returns id 0, bytes B
are written into its frame, the page is unpinned dirty, its frame is evicted
by fetching page 1 (the eviction writes B to disk under id 0), and a final
FetchPage of id 0 succeeds and yields a frame holding exactly B. -/
theorem c5_roundtrip (B : Nat) :
    (NewPageImpl (initBPM 1)).1 = some (0, 0) ∧
    (c5evicted B).trace = [DiskOp.alloc 0, DiskOp.write 0 B, DiskOp.read 1] ∧
    (FetchPageImpl (c5ready B) 0).1 = some 0 ∧
    ((FetchPageImpl (c5ready B) 0).2.pages 0).data = B := by
  refine ⟨rfl, rfl, rfl, rfl⟩

/-- C10 scenario: page 0 allocated, written, unpinned dirty and deleted;
the frame returns to the free list with its dirty flag still set. -/
def c10postdelete : BPM :=
  (DeletePageImpl (UnpinPageImpl (WriteData (NewPageImpl (initBPM 1)).2 0 99) 0 true).2 0).2

/-- C10 scenario: a later fetch of the non-resident page 1 takes the dirty
frame from the free list. -/
def c10s : BPM := (FetchPageImpl c10postdelete 1).2

/-- C10: DeletePage leaves the dirty flag set on the freed frame (only the
identifier is reset to the sentinel -1), so the subsequent FetchPage of a
different page observes the free-list frame dirty and issues a WritePage to
the disk manager under the sentinel invalid page identifier -1. -/
theorem c10_delete_leaves_dirty_write_invalid :
    (c10postdelete.pages 0).is_dirty = true ∧
    (c10postdelete.pages 0).page_id = -1 ∧
    c10postdelete.free_list = [0] ∧
    c10s.trace = [DiskOp.alloc 0, DiskOp.dealloc 0, DiskOp.write (-1) 99, DiskOp.read 1] ∧
    DiskOp.write (-1) 99 ∈ c10s.trace := by
  refine ⟨by decide, by decide, by decide, by decide, by decide⟩

/-- C2: whenever FetchPage repurposes an eviction victim's frame whose dirty
flag is set, the disk manager observes a WritePage carrying the frame's old
page identifier and old bytes, and it appears in the trace before the
ReadPage of the new page; the frame only then holds the new identifier.
Likewise NewPage flushes a dirty victim under its old identifier (via
FlushPageImpl) before installing the fresh page. -/
theorem c2_dirty_victim_flushed_before_repurpose
    (s : BPM) (p v : Int) (r1 : LRUReplacer) (f : Nat)
    (h1 : tblFind s.page_table p = none)
    (h2 : s.free_list = [])
    (h3 : s.replacer.Victim = some (v, r1))
    (h4 : tblFind s.page_table v = some f)
    (h5 : (s.pages f).is_dirty = true)
    (s2 : BPM) (v2 : Int) (r4 : LRUReplacer) (f2 : Nat)
    (g2 : s2.free_list = [])
    (g3 : s2.replacer.Victim = some (v2, r4))
    (g4 : tblFind s2.page_table v2 = some f2)
    (g5 : (s2.pages f2).is_dirty = true) :
    ((FetchPageImpl s p).2.trace
        = s.trace ++ [DiskOp.write (s.pages f).page_id (s.pages f).data, DiskOp.read p] ∧
      ((FetchPageImpl s p).2.pages f).page_id = p) ∧
    ((NewPageImpl s2).2.trace
        = s2.trace ++ [DiskOp.alloc s2.disk.next, DiskOp.write v2 (s2.pages f2).data] ∧
      ((NewPageImpl s2).2.pages f2).page_id = s2.disk.next) := by
  have hsz : LRUReplacer.Size s.replacer ≠ 0 := by
    intro h0
    rw [LRUReplacer.Victim, if_pos (show s.replacer.size = 0 from h0)] at h3
    exact absurd h3 (by simp)
  have hsz2 : LRUReplacer.Size s2.replacer ≠ 0 := by
    intro h0
    rw [LRUReplacer.Victim, if_pos (show s2.replacer.size = 0 from h0)] at g3
    exact absurd g3 (by simp)
  refine ⟨⟨?_, ?_⟩, ⟨?_, ?_⟩⟩
  · simp [FetchPageImpl, h1, h2, h3, h4, h5, hsz, repurpose]
  · simp [FetchPageImpl, h1, h2, h3, h4, h5, hsz, repurpose, updPages]
  · simp [NewPageImpl, g2, g3, g4, g5, hsz2, FlushPageImpl, newInstall]
  · simp [NewPageImpl, g2, g3, g4, g5, hsz2, FlushPageImpl, newInstall, updPages]

/-- C2 scenario state: one-frame pool holding page 0 dirty and unpinned. -/
def c2s : BPM :=
  (UnpinPageImpl (WriteData (NewPageImpl (initBPM 1)).2 0 99) 0 true).2

/-- Witness for C2: fetching page 1 (and allocating a new page) on a pool
whose single frame holds dirty page 0 flushes 99 under id 0 first. -/
theorem c2_witness :
    (tblFind c2s.page_table 1 = none ∧ c2s.free_list = [] ∧
      c2s.replacer.Victim = some (0, ⟨0, 0, 1, []⟩) ∧
      tblFind c2s.page_table 0 = some 0 ∧ (c2s.pages 0).is_dirty = true) ∧
    (((FetchPageImpl c2s 1).2.trace
        = c2s.trace ++ [DiskOp.write (c2s.pages 0).page_id (c2s.pages 0).data,
            DiskOp.read 1] ∧
      ((FetchPageImpl c2s 1).2.pages 0).page_id = 1) ∧
    ((NewPageImpl c2s).2.trace
        = c2s.trace ++ [DiskOp.alloc c2s.disk.next, DiskOp.write 0 (c2s.pages 0).data] ∧
      ((NewPageImpl c2s).2.pages 0).page_id = c2s.disk.next)) :=
  ⟨⟨by decide, by decide, by decide, by decide, by decide⟩,
   c2_dirty_victim_flushed_before_repurpose c2s 1 0 ⟨0, 0, 1, []⟩ 0
     (by decide) (by decide) (by decide) (by decide) (by decide)
     c2s 0 ⟨0, 0, 1, []⟩ 0 (by decide) (by decide) (by decide) (by decide)⟩

/-- State whose single frame is resident, for exercising FlushAllPages. -/
def c6s : BPM := (NewPageImpl (initBPM 1)).2

/-- C6 is violated by the code: NewPageImpl performs no latch operations at
all (its lock_guard is commented out in the source), and FlushAllPagesImpl
acquires the latch and then calls FlushPageImpl, which acquires the same
non-recursive latch again while it is held (self-deadlock), instead of
holding one lock across the whole sequence. -/
theorem c6_lock_discipline_violated :
    newPageLatch = [] ∧
    fetchLatch = [LatchEv.acq, LatchEv.rel] ∧
    unpinLatch = [LatchEv.acq, LatchEv.rel] ∧
    flushLatch = [LatchEv.acq, LatchEv.rel] ∧
    deleteLatch = [LatchEv.acq, LatchEv.rel] ∧
    flushAllLatch c6s = [LatchEv.acq, LatchEv.acq, LatchEv.rel, LatchEv.rel] ∧
    nestedAcquire (flushAllLatch c6s) 0 = true := by
  refine ⟨rfl, rfl, rfl, rfl, rfl, by decide, by decide⟩
